import Mathlib

/-!
# Verification of the codectx staged context-synchronization protocol

Shallow embedding of the Go sources of `cyber-nic/codectx` (client, test
client, server, websocket handler, mapper, shared types) together with
proofs about the snapshot builder, the ignore matcher, the identifier
extractor and the session read loops.

External collaborators (the filesystem, the tree-sitter parsing engine,
`filepath.Match` globbing, JSON decoding of incoming frames, and the
generative model) are modelled as explicit function parameters, so every
theorem quantifies over their behaviour.
-/

set_option maxHeartbeats 1000000

namespace Ctx

/-! ## Data model: `libs/types/main.go`

`FileSystemNode` has fields `Directory`, `Children`, `Skip`, `Keywords`
(revision A of `libs/types`, used by `apps/client`).  The revision used by
`apps/test` names the third field `Ignore`; it occupies the same slot and
is modelled by the same `skip` field here.  The Go `Children` map is
modelled as an association list with unique keys; map assignment is
update-or-append. -/

inductive FileSystemNode where
  | mk (directory : Bool) (children : List (String × FileSystemNode))
       (skip : Bool) (keywords : List String)

def FileSystemNode.directory : FileSystemNode → Bool
  | .mk d _ _ _ => d

def FileSystemNode.children : FileSystemNode → List (String × FileSystemNode)
  | .mk _ c _ _ => c

def FileSystemNode.skip : FileSystemNode → Bool
  | .mk _ _ s _ => s

def FileSystemNode.keywords : FileSystemNode → List String
  | .mk _ _ _ k => k

@[simp] theorem FileSystemNode.directory_mk (d : Bool)
    (c : List (String × FileSystemNode)) (s : Bool) (k : List String) :
    (FileSystemNode.mk d c s k).directory = d := rfl

@[simp] theorem FileSystemNode.children_mk (d : Bool)
    (c : List (String × FileSystemNode)) (s : Bool) (k : List String) :
    (FileSystemNode.mk d c s k).children = c := rfl

@[simp] theorem FileSystemNode.skip_mk (d : Bool)
    (c : List (String × FileSystemNode)) (s : Bool) (k : List String) :
    (FileSystemNode.mk d c s k).skip = s := rfl

@[simp] theorem FileSystemNode.keywords_mk (d : Bool)
    (c : List (String × FileSystemNode)) (s : Bool) (k : List String) :
    (FileSystemNode.mk d c s k).keywords = k := rfl

theorem FileSystemNode.eta (n : FileSystemNode) :
    FileSystemNode.mk n.directory n.children n.skip n.keywords = n := by
  cases n; rfl

/-- The node created by the walkers for an intermediate directory:
`&ctxtypes.FileSystemNode{Directory: true, Children: map…{}}`. -/
def emptyDirNode : FileSystemNode := .mk true [] false []

/-- Go map read `m[k]`. -/
def lookupChild (cs : List (String × FileSystemNode)) (k : String) :
    Option FileSystemNode :=
  match cs with
  | [] => none
  | (k', v) :: rest => if k' = k then some v else lookupChild rest k

/-- Go map write `m[k] = v` (update in place, or append a fresh key). -/
def setChild (cs : List (String × FileSystemNode)) (k : String)
    (v : FileSystemNode) : List (String × FileSystemNode) :=
  match cs with
  | [] => [(k, v)]
  | (k', v') :: rest =>
      if k' = k then (k, v) :: rest else (k', v') :: setChild rest k v

/-- Navigation loop of `getContextFileTree`: starting from `n`, follow the
path `ks` through `Children`, creating `emptyDirNode` entries for missing
segments, and apply `f` to the children map of the final node.  Mutation
through Go pointers becomes a functional update along the path. -/
def updAt (n : FileSystemNode) :
    List String → (List (String × FileSystemNode) → List (String × FileSystemNode)) →
    FileSystemNode
  | [], f => .mk n.directory (f n.children) n.skip n.keywords
  | k :: ks, f =>
      .mk n.directory
        (setChild n.children k (updAt ((lookupChild n.children k).getD emptyDirNode) ks f))
        n.skip n.keywords

/-- `node := root; for part in dirs { descend/create }; node.Children[key] = child`. -/
def insertPath (root : FileSystemNode) (dirs : List String) (key : String)
    (child : FileSystemNode) : FileSystemNode :=
  updAt root dirs (fun cs => setChild cs key child)

/-- Follow a list of child-map keys down from a node. -/
def getPath (n : FileSystemNode) : List String → Option FileSystemNode
  | [] => some n
  | k :: ks =>
      match lookupChild n.children k with
      | some c => getPath c ks
      | none => none

/-- The children map found (or defaulted to `emptyDirNode`'s) at the end of
the navigation chain `ks`; `updAt` applies its function exactly to this
list. -/
def getAtC (n : FileSystemNode) : List String → List (String × FileSystemNode)
  | [] => n.children
  | k :: ks => getAtC ((lookupChild n.children k).getD emptyDirNode) ks

/-! ### Association-list and navigation lemmas -/

theorem lookupChild_setChild_self (cs : List (String × FileSystemNode))
    (k : String) (v : FileSystemNode) :
    lookupChild (setChild cs k v) k = some v := by
  induction cs with
  | nil => simp [setChild, lookupChild]
  | cons hd tl ih =>
      obtain ⟨k', v'⟩ := hd
      by_cases h : k' = k <;> simp [setChild, lookupChild, h, ih]

theorem lookupChild_setChild_ne (cs : List (String × FileSystemNode))
    {k k' : String} (v : FileSystemNode) (h : k' ≠ k) :
    lookupChild (setChild cs k v) k' = lookupChild cs k' := by
  induction cs with
  | nil =>
      simp only [setChild, lookupChild]
      rw [if_neg (fun hh => h hh.symm)]
  | cons hd tl ih =>
      obtain ⟨k₀, v₀⟩ := hd
      by_cases h₀ : k₀ = k
      · subst h₀
        simp only [setChild, if_pos rfl, lookupChild]
        rw [if_neg (fun hh => h hh.symm), if_neg (fun hh => h hh.symm)]
      · by_cases h₁ : k₀ = k'
        · subst h₁
          simp [setChild, lookupChild, h₀]
        · simp [setChild, lookupChild, h₀, h₁, ih]

theorem setChild_setChild (cs : List (String × FileSystemNode))
    (k : String) (v w : FileSystemNode) :
    setChild (setChild cs k v) k w = setChild cs k w := by
  induction cs with
  | nil => simp [setChild]
  | cons hd tl ih =>
      obtain ⟨k', v'⟩ := hd
      by_cases h : k' = k <;> simp [setChild, h, ih]

theorem setChild_of_notMem (cs : List (String × FileSystemNode))
    (k : String) (v : FileSystemNode) (h : lookupChild cs k = none) :
    setChild cs k v = cs ++ [(k, v)] := by
  induction cs with
  | nil => simp [setChild]
  | cons hd tl ih =>
      obtain ⟨k', v'⟩ := hd
      by_cases h' : k' = k
      · simp [lookupChild, h'] at h
      · simp [lookupChild, h'] at h
        simp [setChild, h', ih h]

theorem lookupChild_append (cs ds : List (String × FileSystemNode)) (k : String) :
    lookupChild (cs ++ ds) k =
      match lookupChild cs k with
      | some v => some v
      | none => lookupChild ds k := by
  induction cs with
  | nil => simp [lookupChild]
  | cons hd tl ih =>
      obtain ⟨k', v'⟩ := hd
      by_cases h : k' = k <;> simp [lookupChild, h, ih]

/-- `updAt` only depends on / rewrites what sits at the end of the chain. -/
theorem updAt_congr (n : FileSystemNode) (p : List String)
    (f g : List (String × FileSystemNode) → List (String × FileSystemNode))
    (h : f (getAtC n p) = g (getAtC n p)) : updAt n p f = updAt n p g := by
  induction p generalizing n with
  | nil => simp [updAt, getAtC] at h ⊢; simp [h]
  | cons k ks ih =>
      simp [updAt, getAtC] at h ⊢
      rw [ih _ h]

theorem getAtC_updAt (n : FileSystemNode) (p : List String)
    (f : List (String × FileSystemNode) → List (String × FileSystemNode)) :
    getAtC (updAt n p f) p = f (getAtC n p) := by
  induction p generalizing n with
  | nil => simp [updAt, getAtC]
  | cons k ks ih =>
      simp only [updAt, getAtC, FileSystemNode.children_mk,
        lookupChild_setChild_self, Option.getD_some]
      exact ih _

theorem updAt_updAt (n : FileSystemNode) (p : List String)
    (f g : List (String × FileSystemNode) → List (String × FileSystemNode)) :
    updAt (updAt n p f) p g = updAt n p (fun cs => g (f cs)) := by
  induction p generalizing n with
  | nil => simp [updAt]
  | cons k ks ih =>
      simp only [updAt, FileSystemNode.children_mk, FileSystemNode.directory_mk,
        FileSystemNode.skip_mk, FileSystemNode.keywords_mk,
        lookupChild_setChild_self, Option.getD_some, setChild_setChild]
      rw [ih]

/-- Splitting a navigation chain. -/
theorem updAt_append (n : FileSystemNode) (p q : List String)
    (f : List (String × FileSystemNode) → List (String × FileSystemNode)) :
    updAt n (p ++ q) f =
      updAt n p (fun cs =>
        (updAt (.mk true cs false []) q f).children) := by
  induction p generalizing n with
  | nil =>
      simp [updAt]
      cases q with
      | nil => simp [updAt, FileSystemNode.children]
      | cons k ks => simp [updAt, FileSystemNode.children]
  | cons k ks ih =>
      simp only [List.cons_append, updAt, List.append_eq]
      rw [ih]

/-! ## Relative paths

`filepath.Walk` hands the walk function `path`; the walkers compute
`relPath, _ := filepath.Rel(dirPath, path)` and
`parts := strings.Split(relPath, string(os.PathSeparator))`.  The
filesystem model below supplies the segment list `parts` directly;
`joinRel` rebuilds the `relPath` string (`strings.Split` is its inverse on
wellformed segment lists, i.e. nonempty segments free of the separator). -/

def joinRel : List String → String
  | [] => ""
  | [s] => s
  | s :: rest => s ++ "/" ++ joinRel rest

/-- A wellformed path segment: nonempty, and free of the separator.  Every
name produced by a real directory walk satisfies this. -/
def wfName (s : String) : Prop := s.data ≠ [] ∧ '/' ∉ s.data

instance (s : String) : Decidable (wfName s) := by
  unfold wfName; infer_instance

theorem stringDataEq {a b : String} (h : a.data = b.data) : a = b := by
  cases a; cases b; exact congrArg String.mk h

theorem joinRel_cons (s : String) (rest : List String) (h : rest ≠ []) :
    joinRel (s :: rest) = s ++ "/" ++ joinRel rest := by
  cases rest with
  | nil => exact absurd rfl h
  | cons t ts => rfl

theorem joinRel_data_cons (s : String) (rest : List String) (h : rest ≠ []) :
    (joinRel (s :: rest)).data = s.data ++ '/' :: (joinRel rest).data := by
  rw [joinRel_cons s rest h]
  simp [String.data_append]

theorem joinRel_append_last (p : List String) (x : String) :
    joinRel (p ++ [x]) = if p = [] then x else joinRel p ++ "/" ++ x := by
  induction p with
  | nil => simp [joinRel]
  | cons s rest ih =>
      have h₁ : rest ++ [x] ≠ [] := by simp
      rw [List.cons_append, joinRel_cons s (rest ++ [x]) h₁, ih]
      by_cases h : rest = []
      · subst h; simp [joinRel]
      · rw [if_neg h]
        simp [joinRel_cons s rest h, String.append_assoc]

theorem slash_mem_joinRel_append (p : List String) (x : String) (h : p ≠ []) :
    '/' ∈ (joinRel (p ++ [x])).data := by
  rw [joinRel_append_last, if_neg h]
  simp [String.data_append]

/-- Splitting two decompositions at a separator character. -/
theorem sep_split (a : List Char) :
    ∀ (b r₁ r₂ : List Char), '/' ∉ a → '/' ∉ b →
      a ++ '/' :: r₁ = b ++ '/' :: r₂ → a = b ∧ r₁ = r₂ := by
  induction a with
  | nil =>
      intro b r₁ r₂ _ hb h
      cases b with
      | nil => simpa using h
      | cons y ys =>
          simp only [List.nil_append, List.cons_append, List.cons.injEq] at h
          exact absurd
            (show ('/') ∈ y :: ys by rw [← h.1]; exact List.mem_cons_self _ _) hb
  | cons x xs ih =>
      intro b r₁ r₂ ha hb h
      cases b with
      | nil =>
          simp only [List.cons_append, List.nil_append, List.cons.injEq] at h
          exact absurd
            (show ('/') ∈ x :: xs by rw [h.1]; exact List.mem_cons_self _ _) ha
      | cons y ys =>
          simp only [List.cons_append, List.cons.injEq] at h
          obtain ⟨rfl, h₂⟩ := h
          have ha' : '/' ∉ xs := fun hm => ha (List.mem_cons_of_mem _ hm)
          have hb' : '/' ∉ ys := fun hm => hb (List.mem_cons_of_mem _ hm)
          obtain ⟨rfl, rfl⟩ := ih ys r₁ r₂ ha' hb' h₂
          exact ⟨rfl, rfl⟩

theorem joinRel_inj :
    ∀ (p₁ p₂ : List String), p₁ ≠ [] → p₂ ≠ [] →
      (∀ s ∈ p₁, wfName s) → (∀ s ∈ p₂, wfName s) →
      joinRel p₁ = joinRel p₂ → p₁ = p₂ := by
  intro p₁
  induction p₁ with
  | nil => intro _ h; exact absurd rfl h
  | cons x xs ih =>
      intro p₂ _ h₂ hw₁ hw₂ h
      cases p₂ with
      | nil => exact absurd rfl h₂
      | cons y ys =>
          by_cases hx : xs = []
          · subst hx
            by_cases hy : ys = []
            · subst hy
              simp only [joinRel] at h
              simp [h]
            · exfalso
              have hd := congrArg String.data h
              rw [joinRel_data_cons y ys hy] at hd
              have : '/' ∈ (joinRel [x]).data := by
                rw [hd]; simp
              exact (hw₁ x (by simp)).2 (by simpa [joinRel] using this)
          · by_cases hy : ys = []
            · exfalso
              subst hy
              have hd := congrArg String.data h
              rw [joinRel_data_cons x xs hx] at hd
              have : '/' ∈ (joinRel [y]).data := by
                rw [← hd]; simp
              exact (hw₂ y (by simp)).2 (by simpa [joinRel] using this)
            · have hd := congrArg String.data h
              rw [joinRel_data_cons x xs hx, joinRel_data_cons y ys hy] at hd
              obtain ⟨hxy, hrest⟩ :=
                sep_split x.data y.data (joinRel xs).data (joinRel ys).data
                  (hw₁ x (by simp)).2 (hw₂ y (by simp)).2 hd
              have hx' : x = y := stringDataEq hxy
              have hxs : xs = ys :=
                ih ys hx hy (fun s hs => hw₁ s (by simp [hs]))
                  (fun s hs => hw₂ s (by simp [hs])) (stringDataEq hrest)
              rw [hx', hxs]

/-! ## Go standard-library helpers used by the walkers -/

/-- The final path element of a character list (text after the last
separator). -/
def afterLastSlash (l : List Char) : List Char :=
  l.foldl (fun acc c => if c = '/' then [] else acc ++ [c]) []

/-- `filepath.Base` (used by `matchesIgnoreList` on the walk path). -/
def goFilepathBase (path : String) : String :=
  if path = "" then "."
  else
    let t := ((path.data.reverse.dropWhile (fun c => c = '/')).reverse)
    if t = [] then "/" else String.mk (afterLastSlash t)

/-- `filepath.Ext`: the suffix starting at the final dot in the final
element; empty if there is no dot. -/
def goFilepathExt (path : String) : String :=
  let seg := afterLastSlash path.data
  let tl := seg.reverse.takeWhile (fun c => c ≠ '.')
  if tl.length = seg.length then "" else String.mk ('.' :: tl.reverse)

/-- `strings.Replace(s, pat, "", 1)` on character lists: drop the first
occurrence of `pat`. -/
def dropFirstOcc (pat : List Char) : List Char → List Char
  | [] => []
  | c :: rest =>
      if pat.isPrefixOf (c :: rest) then (c :: rest).drop pat.length
      else c :: dropFirstOcc pat rest

/-- `strings.Replace(filePath, "./", "", 1)` at the top of `parseFile`. -/
def goStripDotSlashOnce (s : String) : String :=
  String.mk (dropFirstOcc ("./").data s.data)

/-! ## Ignore matcher: `loadIgnoreList` (apps/test/utils.go, shared by the
client) and `matchesIgnoreList` (apps/client/main.go, apps/test/main.go)

`filepath.Match` globbing is an external collaborator, passed in as
`fpMatch pattern name`; its error return is discarded by the source
(`matched, _ :=`), so only the boolean is modelled. -/

def matchesIgnoreList (fpMatch : String → String → Bool)
    (path : String) (ignoreList : List String) : Bool :=
  ignoreList.any (fun pattern =>
    fpMatch pattern (goFilepathBase path) || path.startsWith pattern)

/-- `loadIgnoreList`: `none` models `os.Open` failing (missing file), in
which case the empty list is returned; otherwise every line is trimmed,
blank lines and `#`-comments are skipped, and the result is the key set of
the accumulating map (deduplicated; Go iterates the map in unspecified
order, `List.dedup` is the canonical representative). -/
def loadIgnoreList (ignoreFile : Option (List String)) : List String :=
  match ignoreFile with
  | none => []
  | some lines =>
      (((lines.map (fun l => l.trim)).filter
        (fun line => line != "" && !(line.startsWith "#")))).dedup

/-! ## Language dispatch: `getLanguage` (apps/test/utils.go) -/

inductive SitterLanguage where
  | go | javascript | python | typescript
  deriving DecidableEq

def getLanguage (path : String) : Option SitterLanguage :=
  if path.startsWith "Dockerfile" then some .go
  else
    let ext := goFilepathExt path
    if ext = ".go" then some .go
    else if ext = ".jsx" then some .javascript
    else if ext = ".js" then some .javascript
    else if ext = ".py" then some .python
    else if ext = ".tsx" then some .typescript
    else if ext = ".ts" then some .typescript
    else none

/-- `parseFile` (apps/client/main.go, identical in apps/test/main.go):
strips the first `"./"`, dispatches on `getLanguage`, then reads and
parses the file.  `readParse` is the external collaborator combining
`os.ReadFile`, the tree-sitter parse and `mapper.GetCodeMap`; `none`
models a read failure (`GetCodeMap` itself never fails on the non-nil
root produced by a successful parse — see `GetCodeMap_ok` below). -/
def parseFile (readParse : String → Option (List String))
    (filePath : String) : Option (List String) :=
  let fp := goStripDotSlashOnce filePath
  match getLanguage fp with
  | none => none
  | some _ => readParse fp

/-! ## Filesystem model for the directory walk

`filepath.Walk` performs a pre-order traversal: each directory is visited
before its contents.  `FSEntry` models the directory tree under the walk
root; the walkers below visit an entry (computing its `relPath`) and then,
for a non-ignored directory, its entries in order.  (The real walk orders
siblings lexically; the proofs hold for any order, so the model keeps the
list order.) -/

inductive FSEntry where
  | file (name : String)
  | dir (name : String) (entries : List FSEntry)

def FSEntry.name : FSEntry → String
  | .file n => n
  | .dir n _ => n

@[simp] theorem FSEntry.name_file (n : String) : (FSEntry.file n).name = n := rfl

@[simp] theorem FSEntry.name_dir (n : String) (es : List FSEntry) :
    (FSEntry.dir n es).name = n := rfl

/-- Wellformed directory data: every name is a wellformed segment and
sibling names are distinct — true of any real directory tree. -/
inductive WFEntry : FSEntry → Prop where
  | file {n : String} : wfName n → WFEntry (.file n)
  | dir {n : String} {es : List FSEntry} : wfName n →
      (es.map FSEntry.name).Nodup → (∀ e ∈ es, WFEntry e) →
      WFEntry (.dir n es)

theorem WFEntry.wf_name {e : FSEntry} (h : WFEntry e) : wfName e.name := by
  cases h with
  | file h => exact h
  | dir h _ _ => exact h

/-- The external collaborators and configuration threaded through one walk:
the `filepath.Match` primitive, the read-and-parse pipeline behind
`parseFile`, the loaded ignore list, and the walk root `dirPath`. -/
structure WalkEnv where
  fpMatch : String → String → Bool
  readParse : String → Option (List String)
  il : List String
  dirPath : String

/-- The ignore test performed for the entry with segment list `parts`:
`matchesIgnoreList(path, ignoreList)` on the absolute walk path
`dirPath + "/" + relPath`. -/
def ignoredRel (env : WalkEnv) (parts : List String) : Bool :=
  matchesIgnoreList env.fpMatch (env.dirPath ++ "/" ++ joinRel parts) env.il

/-- The node stored for a non-ignored file by the client walker
(apps/client/main.go lines 424–432): on `parseFile` failure a zero-value
`FileSystemNode{}`, otherwise `FileSystemNode{Keywords: keywords}`. -/
def clientFileNode (readParse : String → Option (List String))
    (relPath : String) : FileSystemNode :=
  match parseFile readParse relPath with
  | none => .mk false [] false []
  | some kws => .mk false [] false kws

mutual

/-- One visit of the `filepath.Walk` callback of `getContextFileTree` in
apps/client/main.go, plus the recursive walk below a non-ignored
directory.  `pfx` is the parent's segment list, so the visited entry has
`parts = pfx ++ [name]`; the callback navigates `parts[:len(parts)-1]`
(creating missing intermediate directory nodes) and stores the new node
under the key `relPath` — the full relative path, since the client stores
`node.Children[relPath] = …` in every branch.  An ignored directory
returns `filepath.SkipDir`, so its entries are not visited. -/
def walkEntryC (env : WalkEnv) (root : FileSystemNode) (pfx : List String) :
    FSEntry → FileSystemNode
  | .file n =>
      if ignoredRel env (pfx ++ [n]) then
        insertPath root pfx (joinRel (pfx ++ [n])) (.mk false [] true [])
      else
        insertPath root pfx (joinRel (pfx ++ [n]))
          (clientFileNode env.readParse (joinRel (pfx ++ [n])))
  | .dir n es =>
      if ignoredRel env (pfx ++ [n]) then
        insertPath root pfx (joinRel (pfx ++ [n])) (.mk true [] true [])
      else
        walkEntriesC env
          (insertPath root pfx (joinRel (pfx ++ [n])) (.mk true [] false []))
          (pfx ++ [n]) es

/-- The walk over a list of sibling entries, threading the tree being
built. -/
def walkEntriesC (env : WalkEnv) (root : FileSystemNode) (pfx : List String) :
    List FSEntry → FileSystemNode
  | [] => root
  | e :: rest => walkEntriesC env (walkEntryC env root pfx e) pfx rest

end

/-- `getContextFileTree(dirPath, ignoreList)` of apps/client/main.go:
walk from an empty root directory node and wrap the result under the key
`dirPath`. -/
def getContextFileTreeC (env : WalkEnv) (entries : List FSEntry) :
    String × FileSystemNode :=
  (env.dirPath, walkEntriesC env (.mk true [] false []) [] entries)

mutual

/-- The children map that the client walk produces under the
per-segment chain node of directory `p`, described entry by entry:

* every visited entry leaves a node keyed by its full relative path
  (ignored entries leave a `Skip` marker and, for directories, are not
  descended into);
* a non-ignored subdirectory of a non-root directory additionally gets a
  fresh per-segment node (keyed by its bare name) holding its recursively
  built children, created lazily by the first visit below it — hence only
  when it has entries.  At root level (`p = []`) the full relative path
  IS the bare name, so the marker and the per-segment node coincide. -/
def specEntryC (env : WalkEnv) (p : List String) : FSEntry → List (String × FileSystemNode)
  | .file n =>
      if ignoredRel env (p ++ [n]) then [(joinRel (p ++ [n]), .mk false [] true [])]
      else [(joinRel (p ++ [n]), clientFileNode env.readParse (joinRel (p ++ [n])))]
  | .dir n es =>
      if ignoredRel env (p ++ [n]) then [(joinRel (p ++ [n]), .mk true [] true [])]
      else if p = [] then
        [(joinRel (p ++ [n]), .mk true (specEntriesC env (p ++ [n]) es) false [])]
      else
        (joinRel (p ++ [n]), .mk true [] false []) ::
          (if es.isEmpty then []
           else [(n, .mk true (specEntriesC env (p ++ [n]) es) false [])])

def specEntriesC (env : WalkEnv) (p : List String) : List FSEntry → List (String × FileSystemNode)
  | [] => []
  | e :: rest => specEntryC env p e ++ specEntriesC env p rest

end

/-! ### Key bookkeeping for the walk characterization -/

theorem lookupChild_eq_none_iff (cs : List (String × FileSystemNode)) (k : String) :
    lookupChild cs k = none ↔ k ∉ cs.map Prod.fst := by
  induction cs with
  | nil => simp [lookupChild]
  | cons hd tl ih =>
      obtain ⟨k', v'⟩ := hd
      by_cases h : k' = k
      · subst h
        simp [lookupChild]
      · simp only [lookupChild, if_neg h, List.map_cons, List.mem_cons, not_or, ih]
        constructor
        · intro hn; exact ⟨fun he => h he.symm, hn⟩
        · intro hn; exact hn.2

theorem setChild_append_last (cs : List (String × FileSystemNode))
    (k : String) (v w : FileSystemNode) (h : lookupChild cs k = none) :
    setChild (cs ++ [(k, v)]) k w = cs ++ [(k, w)] := by
  induction cs with
  | nil => simp [setChild]
  | cons hd tl ih =>
      obtain ⟨k', v'⟩ := hd
      by_cases h' : k' = k
      · simp [lookupChild, h'] at h
      · simp [lookupChild, h'] at h
        simp [setChild, h', ih h]

theorem insertPath_append (root : FileSystemNode) (p : List String)
    (key : String) (v : FileSystemNode)
    (h : lookupChild (getAtC root p) key = none) :
    insertPath root p key v = updAt root p (fun cs => cs ++ [(key, v)]) := by
  unfold insertPath
  exact updAt_congr _ _ _ _ (setChild_of_notMem _ _ _ h)

theorem getAtC_append_chain (n : FileSystemNode) (p q : List String) :
    getAtC n (p ++ q) = getAtC (.mk true (getAtC n p) false []) q := by
  induction p generalizing n with
  | nil => cases q <;> simp [getAtC]
  | cons k ks ih => simp only [List.cons_append, getAtC]; exact ih _

theorem joinRel_last_ne (p : List String) {m n : String} (h : m ≠ n) :
    joinRel (p ++ [m]) ≠ joinRel (p ++ [n]) := by
  rw [joinRel_append_last, joinRel_append_last]
  by_cases hp : p = []
  · simpa [hp] using h
  · rw [if_neg hp, if_neg hp]
    intro he
    apply h
    have hd := congrArg String.data he
    simp only [String.data_append] at hd
    exact stringDataEq (List.append_cancel_left hd)

theorem seg_ne_joinRel_append {m : String} (p : List String) (x : String)
    (hp : p ≠ []) (hm : wfName m) : m ≠ joinRel (p ++ [x]) := by
  intro h
  exact hm.2 (h ▸ slash_mem_joinRel_append p x hp)

/-- Every key stored by `specEntryC` for an entry is either the entry's
full relative path or its bare name. -/
theorem specEntryC_keys (env : WalkEnv) (p : List String) (e : FSEntry)
    {k : String} (h : k ∈ (specEntryC env p e).map Prod.fst) :
    k = joinRel (p ++ [e.name]) ∨ k = e.name := by
  cases e with
  | file n =>
      by_cases hig : ignoredRel env (p ++ [n]) <;>
        simp [specEntryC, hig] at h <;> simp [h]
  | dir n es =>
      by_cases hig : ignoredRel env (p ++ [n])
      · simp [specEntryC, hig] at h; simp [h]
      · by_cases hp : p = []
        · subst hp
          simp only [List.nil_append] at hig h ⊢
          simp [specEntryC, hig] at h
          simp [h]
        · by_cases hes : es.isEmpty
          · simp [specEntryC, hig, hp, hes] at h
            simp [h]
          · simp [specEntryC, hig, hp, hes] at h
            rcases h with h | h <;> simp [h]

theorem lookupChild_specEntryC_none (env : WalkEnv) (p : List String)
    (e : FSEntry) {k : String}
    (h₁ : k ≠ joinRel (p ++ [e.name])) (h₂ : k ≠ e.name) :
    lookupChild (specEntryC env p e) k = none := by
  rw [lookupChild_eq_none_iff]
  intro hmem
  rcases specEntryC_keys env p e hmem with h | h
  · exact h₁ h
  · exact h₂ h

/-- Freshness of the keys an entry list will write at the chain node of
`p`: none of the bare names nor full relative paths of the entries are
present yet.  Holds trivially at the start of the walk (empty root) and at
every recursive call (the chain node is freshly created). -/
def freshKeys (env : WalkEnv) (root : FileSystemNode) (p : List String)
    (es : List FSEntry) : Prop :=
  ∀ e ∈ es, lookupChild (getAtC root p) e.name = none ∧
    lookupChild (getAtC root p) (joinRel (p ++ [e.name])) = none

theorem walkEntriesC_spec (env : WalkEnv) :
    ∀ (fuel : Nat) (es : List FSEntry) (root : FileSystemNode) (p : List String),
      sizeOf es ≤ fuel →
      (es.map FSEntry.name).Nodup →
      (∀ e ∈ es, WFEntry e) →
      freshKeys env root p es →
      walkEntriesC env root p es =
        if es.isEmpty then root
        else updAt root p (fun cs => cs ++ specEntriesC env p es) := by
  intro fuel
  induction fuel with
  | zero =>
      intro es root p hs _ _ _
      cases es with
      | nil => simp [walkEntriesC]
      | cons e rest =>
          exfalso
          simp only [List.cons.sizeOf_spec] at hs
          omega
  | succ fuel ih =>
      intro es root p hs hnd hwf hfresh
      cases es with
      | nil => simp [walkEntriesC]
      | cons e rest =>
      obtain ⟨hfn, hfj⟩ := hfresh e (List.mem_cons_self _ _)
      have hwfe : WFEntry e := hwf e (List.mem_cons_self _ _)
      have hwfnm : wfName e.name := hwfe.wf_name
      -- head step: one visit writes exactly the entry's spec block
      have hhead : walkEntryC env root p e =
          updAt root p (fun cs => cs ++ specEntryC env p e) := by
        cases e with
        | file n =>
            by_cases hig : ignoredRel env (p ++ [n])
            · rw [walkEntryC, if_pos hig,
                insertPath_append _ _ _ _ (by simpa using hfj)]
              apply updAt_congr
              simp [specEntryC, hig]
            · rw [walkEntryC, if_neg hig,
                insertPath_append _ _ _ _ (by simpa using hfj)]
              apply updAt_congr
              simp [specEntryC, hig]
        | dir n es' =>
            simp only [FSEntry.name_dir] at hfn hfj hwfnm
            by_cases hig : ignoredRel env (p ++ [n])
            · rw [walkEntryC, if_pos hig, insertPath_append _ _ _ _ hfj]
              apply updAt_congr
              simp [specEntryC, hig]
            · rw [walkEntryC, if_neg hig,
                insertPath_append _ _ _ _ hfj]
              -- the marker has been written; name the intermediate tree
              set key := joinRel (p ++ [n]) with hkey
              set R2 := updAt root p
                (fun cs => cs ++ [(key, FileSystemNode.mk true [] false [])]) with hR2
              have hdir : wfName n ∧ (es'.map FSEntry.name).Nodup ∧
                  ∀ x ∈ es', WFEntry x := by
                cases hwfe with
                | dir a b c => exact ⟨a, b, c⟩
              obtain ⟨hwfn', hnd', hwf'⟩ := hdir
              -- the chain node for the subdirectory starts out empty
              have hchain : getAtC R2 (p ++ [n]) = [] := by
                rw [getAtC_append_chain, hR2]
                simp only [getAtC, getAtC_updAt, FileSystemNode.children_mk]
                by_cases hp : p = []
                · subst hp
                  have hkn : key = n := by simp [hkey, joinRel]
                  rw [hkn, lookupChild_append, hfn]
                  simp [lookupChild]
                · have hkn : n ≠ key := seg_ne_joinRel_append p n hp hwfn'
                  have hkn2 : ¬(key = n) := fun h => hkn h.symm
                  rw [lookupChild_append, hfn]
                  simp [lookupChild, hkn2, emptyDirNode]
              have hfresh' : freshKeys env R2 (p ++ [n]) es' := by
                intro x _
                rw [hchain]
                exact ⟨rfl, rfl⟩
              have hsz : sizeOf es' ≤ fuel := by
                simp only [List.cons.sizeOf_spec, FSEntry.dir.sizeOf_spec] at hs
                omega
              rw [ih es' R2 (p ++ [n]) hsz hnd' hwf' hfresh']
              cases es' with
              | nil =>
                  rw [if_pos (by simp)]
                  rw [hR2]
                  apply updAt_congr
                  by_cases hp : p = []
                  · subst hp
                    have hig2 : ¬ignoredRel env [n] = true := by simpa using hig
                    simp [specEntryC, hig2, specEntriesC, hkey, joinRel]
                  · simp [specEntryC, hig, hp, specEntriesC, ← hkey]
              | cons e0 rest0 =>
                  rw [if_neg (by simp)]
                  rw [updAt_append, hR2, updAt_updAt]
                  apply updAt_congr
                  -- evaluate the composite at the original children map
                  set cs0 := getAtC root p with hcs0
                  set S := specEntriesC env (p ++ [n]) (e0 :: rest0) with hS
                  by_cases hp : p = []
                  · subst hp
                    have hkn : key = n := by simp [hkey, joinRel]
                    rw [hkn]
                    have hlook :
                        lookupChild (cs0 ++ [(n, FileSystemNode.mk true [] false [])]) n =
                          some (FileSystemNode.mk true [] false []) := by
                      rw [lookupChild_append, hfn]
                      simp [lookupChild]
                    simp only [updAt, hlook, Option.getD_some,
                      FileSystemNode.children_mk, FileSystemNode.directory_mk,
                      FileSystemNode.skip_mk, FileSystemNode.keywords_mk]
                    rw [setChild_append_last _ _ _ _ hfn]
                    have hig2 : ¬ignoredRel env [n] = true := by simpa using hig
                    simp [specEntryC, hig2, hS, joinRel]
                  · have hkn : n ≠ key := seg_ne_joinRel_append p n hp hwfn'
                    have hlook :
                        lookupChild (cs0 ++ [(key, FileSystemNode.mk true [] false [])]) n =
                          none := by
                      have hkn2 : ¬(key = n) := fun h => hkn h.symm
                      rw [lookupChild_append, hfn]
                      simp [lookupChild, hkn2]
                    simp only [updAt, hlook, Option.getD_none,
                      FileSystemNode.children_mk, FileSystemNode.directory_mk,
                      FileSystemNode.skip_mk, FileSystemNode.keywords_mk,
                      emptyDirNode]
                    rw [setChild_of_notMem _ _ _ hlook]
                    simp [specEntryC, hig, hp, hS, ← hkey]
      -- tail step: walk the remaining siblings
      have hstep : walkEntriesC env root p (e :: rest) =
          walkEntriesC env (walkEntryC env root p e) p rest := by
        rw [walkEntriesC]
      rw [hstep, hhead]
      -- freshness for the remaining siblings after the head's block
      have hndrest : (rest.map FSEntry.name).Nodup := (List.nodup_cons.mp hnd).2
      have hname_ne : ∀ x ∈ rest, FSEntry.name x ≠ FSEntry.name e := by
        intro x hx he
        exact (List.nodup_cons.mp hnd).1 (he ▸ List.mem_map_of_mem FSEntry.name hx)
      have hfresh2 : freshKeys env
          (updAt root p (fun cs => cs ++ specEntryC env p e)) p rest := by
        intro x hx
        have hwfx : wfName x.name := (hwf x (List.mem_cons_of_mem _ hx)).wf_name
        have hne : x.name ≠ e.name := hname_ne x hx
        obtain ⟨hfx1, hfx2⟩ := hfresh x (List.mem_cons_of_mem _ hx)
        rw [getAtC_updAt, lookupChild_append, lookupChild_append, hfx1, hfx2]
        constructor
        · rw [lookupChild_specEntryC_none]
          · by_cases hp : p = []
            · subst hp; simpa [joinRel] using hne
            · exact seg_ne_joinRel_append p e.name hp hwfx
          · exact hne
        · rw [lookupChild_specEntryC_none]
          · exact joinRel_last_ne p hne
          · by_cases hp : p = []
            · subst hp; simpa [joinRel] using hne
            · intro hcon
              exact seg_ne_joinRel_append p x.name hp
                ((hwf e (List.mem_cons_self _ _)).wf_name) hcon.symm
      cases rest with
      | nil =>
          rw [if_neg (by simp)]
          simp only [walkEntriesC]
          apply updAt_congr
          simp [specEntriesC]
      | cons e1 rest1 =>
          have hsz2 : sizeOf (e1 :: rest1) ≤ fuel := by
            simp only [List.cons.sizeOf_spec] at hs ⊢
            omega
          have hwf2 : ∀ x ∈ e1 :: rest1, WFEntry x :=
            fun x hx => hwf x (List.mem_cons_of_mem _ hx)
          rw [ih (e1 :: rest1) _ p hsz2 hndrest hwf2 hfresh2]
          rw [if_neg (by simp), if_neg (by simp)]
          rw [updAt_updAt]
          apply updAt_congr
          simp [specEntriesC, List.append_assoc]

/-- The full client snapshot tree: walking any wellformed entry list from
the empty root produces exactly the spec tree. -/
theorem getContextFileTreeC_spec (env : WalkEnv) (es : List FSEntry)
    (hnd : (es.map FSEntry.name).Nodup) (hwf : ∀ e ∈ es, WFEntry e) :
    (getContextFileTreeC env es).2 =
      .mk true (specEntriesC env [] es) false [] := by
  unfold getContextFileTreeC
  have hfresh : freshKeys env (.mk true [] false []) [] es := by
    intro e _
    simp [getAtC, lookupChild]
  rw [walkEntriesC_spec env (sizeOf es) es _ [] le_rfl hnd hwf hfresh]
  cases es with
  | nil => simp [specEntriesC]
  | cons e rest => rw [if_neg (by simp)]; simp [updAt]

/-! ## Locating entries in the modelled filesystem -/

/-- Wellformed sibling list: distinct names, recursively wellformed. -/
def WFEntries (es : List FSEntry) : Prop :=
  (es.map FSEntry.name).Nodup ∧ ∀ e ∈ es, WFEntry e

theorem WFEntries_of_dir_mem {es : List FSEntry} {d : String}
    {sub : List FSEntry} (h : WFEntries es) (hm : FSEntry.dir d sub ∈ es) :
    WFEntries sub := by
  have := h.2 _ hm
  cases this with
  | dir _ b c => exact ⟨b, c⟩

/-- Unique entry per name among wellformed siblings. -/
theorem WFEntries_dir_unique {es : List FSEntry} {d : String}
    {a b : List FSEntry} (h : WFEntries es)
    (ha : FSEntry.dir d a ∈ es) (hb : FSEntry.dir d b ∈ es) : a = b := by
  have h2 := List.inj_on_of_nodup_map h.1 ha hb (by simp)
  simpa using h2

/-- A directory chain: following the directory entries named by `q` from
`es` reaches the sibling list `sub`. -/
inductive DirChainAt : List FSEntry → List String → List FSEntry → Prop where
  | nil {es : List FSEntry} : DirChainAt es [] es
  | cons {es sub' sub : List FSEntry} {d : String} {q : List String} :
      FSEntry.dir d sub' ∈ es → DirChainAt sub' q sub → DirChainAt es (d :: q) sub

/-- The entry at relative segment path `parts` inside `es`. -/
inductive EntryAt : List FSEntry → List String → FSEntry → Prop where
  | here {es : List FSEntry} {e : FSEntry} : e ∈ es → EntryAt es [e.name] e
  | there {es sub : List FSEntry} {d : String} {q : List String} {e : FSEntry} :
      FSEntry.dir d sub ∈ es → EntryAt sub q e → EntryAt es (d :: q) e

theorem EntryAt_decompose {es : List FSEntry} {parts : List String}
    {e : FSEntry} (h : EntryAt es parts e) :
    ∃ q sub, parts = q ++ [e.name] ∧ DirChainAt es q sub ∧ e ∈ sub := by
  induction h with
  | here hm => exact ⟨[], _, rfl, .nil, hm⟩
  | there hm _ ih =>
      obtain ⟨q, sub, hparts, hchain, hmem⟩ := ih
      exact ⟨_ :: q, sub, by simp [hparts], .cons hm hchain, hmem⟩

theorem DirChainAt_wf {es : List FSEntry} :
    ∀ {q : List String} {sub : List FSEntry}, WFEntries es →
      DirChainAt es q sub → (∀ s ∈ q, wfName s) ∧ WFEntries sub := by
  intro q sub hwf h
  induction h with
  | nil => exact ⟨by simp, hwf⟩
  | @cons es₀ sub' sub₀ d q₀ hm hc ih =>
      have hwf' : WFEntries sub' := WFEntries_of_dir_mem hwf hm
      have hd : wfName d := by
        have := hwf.2 _ hm
        cases this with
        | dir a _ _ => exact a
      obtain ⟨hq, hsub⟩ := ih hwf'
      refine ⟨?_, hsub⟩
      intro s hs
      rcases List.mem_cons.mp hs with rfl | hs
      · exact hd
      · exact hq s hs

theorem DirChainAt_sub_ne_nil {es : List FSEntry} {q : List String}
    {sub : List FSEntry} {e : FSEntry} (h : DirChainAt es q sub)
    (hm : e ∈ sub) (hq : q ≠ []) : es ≠ [] := by
  cases h with
  | nil => exact absurd rfl hq
  | cons hm' _ => exact List.ne_nil_of_mem hm'

/-! ## Lookup lemmas on the client spec tree -/

/-- The node stored under an entry's full-relative-path key. -/
def markerC (env : WalkEnv) (p : List String) : FSEntry → FileSystemNode
  | .file n =>
      if ignoredRel env (p ++ [n]) then .mk false [] true []
      else clientFileNode env.readParse (joinRel (p ++ [n]))
  | .dir n es =>
      if ignoredRel env (p ++ [n]) then .mk true [] true []
      else if p = [] then .mk true (specEntriesC env (p ++ [n]) es) false []
      else .mk true [] false []

theorem lookupChild_specEntryC_self (env : WalkEnv) (p : List String)
    (e : FSEntry) :
    lookupChild (specEntryC env p e) (joinRel (p ++ [e.name])) =
      some (markerC env p e) := by
  cases e with
  | file n =>
      by_cases hig : ignoredRel env (p ++ [n]) <;>
        simp [specEntryC, markerC, hig, lookupChild]
  | dir n es =>
      by_cases hig : ignoredRel env (p ++ [n])
      · simp [specEntryC, markerC, hig, lookupChild]
      · by_cases hp : p = []
        · subst hp
          have hig2 : ¬ignoredRel env [n] = true := by simpa using hig
          simp [specEntryC, markerC, hig2, lookupChild]
        · by_cases hes : es.isEmpty <;>
            simp [specEntryC, markerC, hig, hp, hes, lookupChild]

theorem lookupChild_specEntriesC_of_mem (env : WalkEnv) (p : List String) :
    ∀ (es : List FSEntry) (e : FSEntry), e ∈ es →
      (es.map FSEntry.name).Nodup → (∀ x ∈ es, WFEntry x) →
      lookupChild (specEntriesC env p es) (joinRel (p ++ [e.name])) =
        some (markerC env p e) := by
  intro es
  induction es with
  | nil => intro e he; exact absurd he (List.not_mem_nil e)
  | cons hd tl ih =>
      intro e he hnd hwf
      rcases List.mem_cons.mp he with rfl | he'
      · rw [specEntriesC, lookupChild_append, lookupChild_specEntryC_self]
      · have hne : e.name ≠ hd.name := by
          intro hcon
          exact (List.nodup_cons.mp hnd).1
            (hcon ▸ List.mem_map_of_mem FSEntry.name he')
        have hnone :
            lookupChild (specEntryC env p hd) (joinRel (p ++ [e.name])) = none := by
          apply lookupChild_specEntryC_none
          · exact joinRel_last_ne p hne
          · by_cases hp : p = []
            · subst hp; simpa [joinRel] using hne
            · exact Ne.symm (seg_ne_joinRel_append p e.name hp
                ((hwf hd (List.mem_cons_self _ _)).wf_name))
        rw [specEntriesC, lookupChild_append, hnone]
        exact ih e he' (List.nodup_cons.mp hnd).2
          (fun x hx => hwf x (List.mem_cons_of_mem _ hx))

/-- Lookup of a bare segment key below a non-root directory: it exists
exactly for a non-ignored subdirectory with at least one entry, and holds
the recursively built children. -/
theorem lookupChild_specEntriesC_seg (env : WalkEnv) (p : List String)
    (hp : p ≠ []) :
    ∀ (es : List FSEntry) (d : String) (sub : List FSEntry),
      FSEntry.dir d sub ∈ es →
      (es.map FSEntry.name).Nodup → (∀ x ∈ es, WFEntry x) →
      ignoredRel env (p ++ [d]) = false → sub ≠ [] →
      lookupChild (specEntriesC env p es) d =
        some (.mk true (specEntriesC env (p ++ [d]) sub) false []) := by
  intro es
  induction es with
  | nil => intro d sub hm _ _ _ _; exact absurd hm (List.not_mem_nil _)
  | cons hd tl ih =>
      intro d sub hm hnd hwf hig hsub
      rcases List.mem_cons.mp hm with heq | hm'
      · subst heq
        have hwfd : wfName d := by
          have := hwf _ (List.mem_cons_self _ _)
          cases this with
          | dir a _ _ => exact a
        have hjd : ¬(joinRel (p ++ [d]) = d) :=
          fun h => seg_ne_joinRel_append p d hp hwfd h.symm
        rcases sub with _ | ⟨s0, stl⟩
        · exact absurd rfl hsub
        · rw [specEntriesC, lookupChild_append]
          simp [specEntryC, hig, hp, lookupChild, hjd]
      · have hwfd : wfName d := by
          have := hwf _ (List.mem_cons_of_mem _ hm')
          cases this with
          | dir a _ _ => exact a
        have hdn : d ≠ hd.name := by
          intro hcon
          exact (List.nodup_cons.mp hnd).1
            (hcon ▸ List.mem_map_of_mem FSEntry.name
              (show FSEntry.dir d sub ∈ tl from hm'))
        have hnone : lookupChild (specEntryC env p hd) d = none :=
          lookupChild_specEntryC_none env p hd
            (seg_ne_joinRel_append p hd.name hp hwfd) hdn
        rw [specEntriesC, lookupChild_append, hnone]
        exact ih d sub hm' (List.nodup_cons.mp hnd).2
          (fun x hx => hwf x (List.mem_cons_of_mem _ hx)) hig hsub

/-- Below a non-root directory, a bare segment key is absent whenever
every directory entry of that name is ignored or empty (in particular for
files and for ignored directories). -/
theorem lookupChild_specEntriesC_no_dkey (env : WalkEnv) (p : List String)
    (hp : p ≠ []) (d : String) (hwfd : wfName d) :
    ∀ (es : List FSEntry),
      (∀ sub, FSEntry.dir d sub ∈ es →
        ignoredRel env (p ++ [d]) = true ∨ sub = []) →
      lookupChild (specEntriesC env p es) d = none := by
  intro es
  induction es with
  | nil => intro _; simp [specEntriesC, lookupChild]
  | cons hd tl ih =>
      intro h
      have hh : lookupChild (specEntryC env p hd) d = none := by
        cases hd with
        | file n =>
            have hjd : ¬(joinRel (p ++ [n]) = d) :=
              fun hc => seg_ne_joinRel_append p n hp hwfd hc.symm
            by_cases hig : ignoredRel env (p ++ [n]) <;>
              simp [specEntryC, hig, lookupChild, hjd]
        | dir n sub' =>
            have hjd : ¬(joinRel (p ++ [n]) = d) :=
              fun hc => seg_ne_joinRel_append p n hp hwfd hc.symm
            by_cases hdn : n = d
            · subst hdn
              rcases h sub' (List.mem_cons_self _ _) with hig | hsub
              · simp [specEntryC, hig, lookupChild, hjd]
              · subst hsub
                by_cases hig : ignoredRel env (p ++ [n]) <;>
                  simp [specEntryC, hig, hp, lookupChild, hjd]
            · by_cases hig : ignoredRel env (p ++ [n])
              · simp [specEntryC, hig, lookupChild, hjd]
              · by_cases hes : sub'.isEmpty <;>
                  simp [specEntryC, hig, hp, hes, lookupChild, hjd, hdn]
      rw [specEntriesC, lookupChild_append, hh]
      exact ih (fun sub hm => h sub (List.mem_cons_of_mem _ hm))

theorem getPath_append (n : FileSystemNode) (p q : List String) :
    getPath n (p ++ q) =
      match getPath n p with
      | some m => getPath m q
      | none => none := by
  induction p generalizing n with
  | nil => simp [getPath]
  | cons k ks ih =>
      simp only [List.cons_append, getPath]
      cases lookupChild n.children k with
      | none => rfl
      | some c => exact ih c

/-- Navigation: following a non-ignored directory chain through the client
spec tree reaches the chain node with the recursively built children. -/
theorem getPath_specC_chain (env : WalkEnv) :
    ∀ (q : List String) (es sub : List FSEntry) (p : List String),
      DirChainAt es q sub → WFEntries es →
      (∀ i, 0 < i → i ≤ q.length → ignoredRel env (p ++ q.take i) = false) →
      sub ≠ [] →
      getPath (.mk true (specEntriesC env p es) false []) q =
        some (.mk true (specEntriesC env (p ++ q) sub) false []) := by
  intro q
  induction q with
  | nil =>
      intro es sub p hchain _ _ _
      cases hchain
      simp [getPath]
  | cons d q' ih =>
      intro es sub p hchain hwf hclear hsub
      cases hchain with
      | @cons _ sub' _ _ _ hm hchain' =>
      have hig : ignoredRel env (p ++ [d]) = false := by
        have := hclear 1 (by omega) (by simp)
        simpa using this
      have hsub' : sub' ≠ [] := by
        cases hchain' with
        | nil => exact hsub
        | cons hm' _ => exact List.ne_nil_of_mem hm'
      have hlook : lookupChild (specEntriesC env p es) d =
          some (.mk true (specEntriesC env (p ++ [d]) sub') false []) := by
        by_cases hp : p = []
        · subst hp
          have hmk := lookupChild_specEntriesC_of_mem env [] es (.dir d sub')
            hm hwf.1 hwf.2
          have hig2 : ¬(ignoredRel env [d] = true) := by simpa using hig
          simpa [markerC, hig2, joinRel] using hmk
        · exact lookupChild_specEntriesC_seg env p hp es d sub' hm hwf.1 hwf.2
            hig hsub'
      rw [show getPath (FileSystemNode.mk true (specEntriesC env p es) false []) (d :: q') =
            getPath (.mk true (specEntriesC env (p ++ [d]) sub') false []) q' by
          simp [getPath, hlook]]
      have hres := ih sub' sub (p ++ [d]) hchain'
        (WFEntries_of_dir_mem hwf hm) ?_ hsub
      · rw [hres]
        simp
      · intro i hi hile
        have := hclear (i + 1) (by omega) (by simpa using Nat.succ_le_succ hile)
        simpa [List.take_succ_cons, List.append_assoc] using this

/-- Soundness half of the client builder characterization: a non-ignored
file below a non-ignored chain sits at the position obtained by following
one per-segment edge per ancestor directory and a final edge keyed by the
full relative path. -/
theorem getPath_clientTree_file (env : WalkEnv) (es : List FSEntry)
    (hwf : WFEntries es) {parts : List String} {m : String}
    (hat : EntryAt es parts (.file m))
    (hclear : ∀ i, 0 < i → i < parts.length →
      ignoredRel env (parts.take i) = false)
    (hig : ignoredRel env parts = false) :
    getPath (getContextFileTreeC env es).2 (parts.dropLast ++ [joinRel parts]) =
      some (clientFileNode env.readParse (joinRel parts)) := by
  obtain ⟨q, sub, hparts, hchain, hmem⟩ := EntryAt_decompose hat
  simp only [FSEntry.name_file] at hparts
  subst hparts
  rw [getContextFileTreeC_spec env es hwf.1 hwf.2]
  rw [List.dropLast_concat, getPath_append]
  have hsubwf : WFEntries sub := (DirChainAt_wf hwf hchain).2
  rw [getPath_specC_chain env q es sub [] hchain hwf ?clear
    (List.ne_nil_of_mem hmem)]
  case clear =>
    intro i hi hile
    have h1 := hclear i hi (by simp; omega)
    rwa [List.take_append_of_le_length hile] at h1
  have hmk := lookupChild_specEntriesC_of_mem env q sub (.file m) hmem
    hsubwf.1 hsubwf.2
  simp only [List.nil_append, FSEntry.name_file] at hmk ⊢
  have hig2 : ¬(ignoredRel env (q ++ [m]) = true) := by simpa using hig
  simp [getPath, hmk, markerC, hig2]

@[simp] theorem clientFileNode_children (rp : String → Option (List String))
    (relPath : String) : (clientFileNode rp relPath).children = [] := by
  unfold clientFileNode
  cases parseFile rp relPath <;> simp

@[simp] theorem clientFileNode_directory (rp : String → Option (List String))
    (relPath : String) : (clientFileNode rp relPath).directory = false := by
  unfold clientFileNode
  cases parseFile rp relPath <;> simp

@[simp] theorem clientFileNode_skip (rp : String → Option (List String))
    (relPath : String) : (clientFileNode rp relPath).skip = false := by
  unfold clientFileNode
  cases parseFile rp relPath <;> simp

theorem lookupChild_specEntriesC_cases (env : WalkEnv) (p : List String) :
    ∀ (es : List FSEntry) (k : String) (v : FileSystemNode),
      lookupChild (specEntriesC env p es) k = some v →
      ∃ e ∈ es, lookupChild (specEntryC env p e) k = some v := by
  intro es
  induction es with
  | nil => intro k v h; simp [specEntriesC, lookupChild] at h
  | cons hd tl ih =>
      intro k v h
      rw [specEntriesC, lookupChild_append] at h
      cases hh : lookupChild (specEntryC env p hd) k with
      | some w =>
          rw [hh] at h
          exact ⟨hd, List.mem_cons_self _ _, by rw [hh, ← h]⟩
      | none =>
          rw [hh] at h
          obtain ⟨e, hme, he⟩ := ih k v h
          exact ⟨e, List.mem_cons_of_mem _ hme, he⟩

theorem lookupChild_specEntryC_cases (env : WalkEnv) (p : List String)
    (e : FSEntry) (k : String) (v : FileSystemNode)
    (h : lookupChild (specEntryC env p e) k = some v) :
    (k = joinRel (p ++ [e.name]) ∧ v = markerC env p e) ∨
    (∃ d sub, e = FSEntry.dir d sub ∧ k = d ∧ p ≠ [] ∧ sub ≠ [] ∧
      ignoredRel env (p ++ [d]) = false ∧
      v = .mk true (specEntriesC env (p ++ [d]) sub) false []) := by
  cases e with
  | file n =>
      left
      by_cases hig : ignoredRel env (p ++ [n])
      · simp only [specEntryC, if_pos hig, lookupChild] at h
        by_cases hk : joinRel (p ++ [n]) = k
        · rw [if_pos hk] at h
          refine ⟨hk.symm, ?_⟩
          simp only [markerC, if_pos hig]
          exact ((Option.some.injEq _ _).mp h).symm
        · rw [if_neg hk] at h
          exact absurd h (by simp)
      · simp only [specEntryC, if_neg hig, lookupChild] at h
        by_cases hk : joinRel (p ++ [n]) = k
        · rw [if_pos hk] at h
          refine ⟨hk.symm, ?_⟩
          simp only [markerC, if_neg hig]
          exact ((Option.some.injEq _ _).mp h).symm
        · rw [if_neg hk] at h
          exact absurd h (by simp)
  | dir n sub =>
      by_cases hig : ignoredRel env (p ++ [n])
      · left
        simp only [specEntryC, hig, if_true, lookupChild] at h
        by_cases hk : joinRel (p ++ [n]) = k
        · simp only [hk, if_pos rfl] at h
          refine ⟨hk.symm, ?_⟩
          simp only [markerC, hig, if_true]
          exact (Option.some.injEq _ _).mp h |>.symm
        · simp [hk] at h
      · by_cases hp : p = []
        · left
          subst hp
          have hig2 : ¬(ignoredRel env [n] = true) := by simpa using hig
          have hspec : specEntryC env [] (.dir n sub) =
              [(joinRel [n], .mk true (specEntriesC env [n] sub) false [])] := by
            simp [specEntryC, hig2]
          rw [hspec] at h
          simp only [lookupChild] at h
          by_cases hk : joinRel [n] = k
          · rw [if_pos hk] at h
            refine ⟨by simpa using hk.symm, ?_⟩
            have hmk : markerC env [] (.dir n sub) =
                .mk true (specEntriesC env [n] sub) false [] := by
              simp [markerC, hig2]
            rw [hmk]
            exact ((Option.some.injEq _ _).mp h).symm
          · rw [if_neg hk] at h
            exact absurd h (by simp)
        · simp only [specEntryC, if_neg hig, if_neg hp, lookupChild] at h
          by_cases hk : joinRel (p ++ [n]) = k
          · simp only [hk, if_pos rfl] at h
            left
            refine ⟨hk.symm, ?_⟩
            simp only [markerC, if_neg hig, if_neg hp]
            exact (Option.some.injEq _ _).mp h |>.symm
          · rw [if_neg hk] at h
            by_cases hes : sub.isEmpty
            · simp [hes, lookupChild] at h
            · simp only [hes, if_neg, Bool.false_eq_true, not_false_iff,
                lookupChild] at h
              by_cases hnk : n = k
              · simp only [hnk, if_pos rfl] at h
                right
                refine ⟨n, sub, rfl, hnk.symm, hp, ?_, by simpa using hig, ?_⟩
                · intro hcon; subst hcon; simp at hes
                · subst hnk
                  exact ((Option.some.injEq _ _).mp h).symm
              · simp [hnk] at h

theorem getPath_children_nil {n : FileSystemNode} (hc : n.children = [])
    (k : String) (ks : List String) : getPath n (k :: ks) = none := by
  simp [getPath, hc, lookupChild]

/-- Completeness half of the client characterization: every
included-file node in the client spec tree is the node of some
non-ignored file of the filesystem, at its canonical position
(per-segment edges for the ancestors, full relative path as final key). -/
theorem specC_complete (env : WalkEnv) :
    ∀ (ks : List String) (es : List FSEntry) (p : List String)
      (nd : FileSystemNode), WFEntries es →
      getPath (.mk true (specEntriesC env p es) false []) ks = some nd →
      nd.directory = false → nd.skip = false →
      ∃ q sub m, DirChainAt es q sub ∧ FSEntry.file m ∈ sub ∧
        ignoredRel env (p ++ (q ++ [m])) = false ∧
        ks = q ++ [joinRel (p ++ (q ++ [m]))] ∧
        nd = clientFileNode env.readParse (joinRel (p ++ (q ++ [m]))) := by
  intro ks
  induction ks with
  | nil =>
      intro es p nd hwf hg hdir hskip
      simp only [getPath, Option.some.injEq] at hg
      rw [← hg] at hdir
      simp at hdir
  | cons k ks2 ih =>
      intro es p nd hwf hg hdir hskip
      simp only [getPath, FileSystemNode.children_mk] at hg
      cases hl : lookupChild (specEntriesC env p es) k with
      | none => rw [hl] at hg; exact absurd hg (by simp)
      | some v =>
          rw [hl] at hg
          obtain ⟨e, hme, hblock⟩ := lookupChild_specEntriesC_cases env p es k v hl
          rcases lookupChild_specEntryC_cases env p e k v hblock with
            ⟨hk, hv⟩ | ⟨d, sub, rfl, hk, hp, hsubne, higd, hv⟩
          · cases e with
            | file n =>
                by_cases hig : ignoredRel env (p ++ [n])
                · exfalso
                  rw [hv] at hg
                  simp only [markerC, if_pos hig] at hg
                  cases ks2 with
                  | nil =>
                      simp only [getPath, Option.some.injEq] at hg
                      rw [← hg] at hskip
                      simp at hskip
                  | cons k3 ks3 =>
                      simp [getPath, lookupChild] at hg
                · cases ks2 with
                  | nil =>
                      simp only [getPath, Option.some.injEq] at hg
                      refine ⟨[], es, n, .nil, hme, ?_, ?_, ?_⟩
                      · simpa using hig
                      · simp only [List.nil_append]
                        rw [hk]
                        simp
                      · rw [← hg, hv]
                        simp [markerC, hig]
                  | cons k3 ks3 =>
                      exfalso
                      rw [hv] at hg
                      simp only [markerC, if_neg hig] at hg
                      rw [getPath_children_nil (clientFileNode_children _ _)] at hg
                      exact absurd hg (by simp)
            | dir n sub =>
                -- every marker of a directory entry is itself a directory
                -- node, with children only in the merged root-level case
                by_cases hig : ignoredRel env (p ++ [n])
                · exfalso
                  rw [hv] at hg
                  simp only [markerC, if_pos hig] at hg
                  cases ks2 with
                  | nil =>
                      simp only [getPath, Option.some.injEq] at hg
                      rw [← hg] at hdir
                      simp at hdir
                  | cons k3 ks3 => simp [getPath, lookupChild] at hg
                · by_cases hp : p = []
                  · subst hp
                    rw [hv] at hg
                    have hig2 : ¬(ignoredRel env [n] = true) := by simpa using hig
                    have hmk : markerC env [] (.dir n sub) =
                        .mk true (specEntriesC env [n] sub) false [] := by
                      simp [markerC, hig2]
                    rw [hmk] at hg
                    cases ks2 with
                    | nil =>
                        simp only [getPath, Option.some.injEq] at hg
                        rw [← hg] at hdir
                        simp at hdir
                    | cons k3 ks3 =>
                        obtain ⟨q2, sub2, m, hchain2, hmem2, hig3, hks3, hnd⟩ :=
                          ih sub [n] nd (WFEntries_of_dir_mem hwf hme) hg hdir hskip
                        refine ⟨n :: q2, sub2, m, .cons hme hchain2, hmem2, ?_, ?_, ?_⟩
                        · simpa [List.append_assoc] using hig3
                        · have hkn : k = n := by simpa [joinRel] using hk
                          rw [hkn, hks3]
                          simp
                        · rw [hnd]
                          simp
                  · exfalso
                    rw [hv] at hg
                    simp only [markerC, if_neg hig, if_neg hp] at hg
                    cases ks2 with
                    | nil =>
                        simp only [getPath, Option.some.injEq] at hg
                        rw [← hg] at hdir
                        simp at hdir
                    | cons k3 ks3 => simp [getPath, lookupChild] at hg
          · -- bare-segment edge into a non-root subdirectory
            rw [hv] at hg
            cases ks2 with
            | nil =>
                exfalso
                simp only [getPath, Option.some.injEq] at hg
                rw [← hg] at hdir
                simp at hdir
            | cons k3 ks3 =>
                obtain ⟨q2, sub2, m, hchain2, hmem2, hig3, hks3, hnd⟩ :=
                  ih sub (p ++ [d]) nd (WFEntries_of_dir_mem hwf hme) hg hdir hskip
                refine ⟨d :: q2, sub2, m, .cons hme hchain2, hmem2, ?_, ?_, ?_⟩
                · simpa [List.append_assoc] using hig3
                · rw [hk, hks3]
                  simp
                · rw [hnd]
                  simp

/-! ## The test-app walker: `getContextFileTree` in apps/test/main.go

Identical navigation, but the visited node is stored under the bare
`name` key (`node.Children[name] = …`), an ignored node carries
`Ignore: true` (modelled by the same `skip` slot), and a file whose
`parseFile` fails is not added at all (the callback logs the failure and
returns nil without storing a node). -/

mutual

def walkEntryT (env : WalkEnv) (root : FileSystemNode) (pfx : List String) :
    FSEntry → FileSystemNode
  | .file n =>
      if ignoredRel env (pfx ++ [n]) then
        insertPath root pfx n (.mk false [] true [])
      else
        match parseFile env.readParse (joinRel (pfx ++ [n])) with
        | none => root
        | some kws => insertPath root pfx n (.mk false [] false kws)
  | .dir n es =>
      if ignoredRel env (pfx ++ [n]) then
        insertPath root pfx n (.mk true [] true [])
      else
        walkEntriesT env (insertPath root pfx n (.mk true [] false []))
          (pfx ++ [n]) es

def walkEntriesT (env : WalkEnv) (root : FileSystemNode) (pfx : List String) :
    List FSEntry → FileSystemNode
  | [] => root
  | e :: rest => walkEntriesT env (walkEntryT env root pfx e) pfx rest

end

def getContextFileTreeT (env : WalkEnv) (entries : List FSEntry) :
    String × FileSystemNode :=
  (env.dirPath, walkEntriesT env (.mk true [] false []) [] entries)

mutual

/-- Children of the node for directory `p` in the test tree: one entry per
visited child, keyed by bare name; parse-failing files are absent. -/
def specEntryT (env : WalkEnv) (p : List String) : FSEntry → List (String × FileSystemNode)
  | .file n =>
      if ignoredRel env (p ++ [n]) then [(n, .mk false [] true [])]
      else
        match parseFile env.readParse (joinRel (p ++ [n])) with
        | none => []
        | some kws => [(n, .mk false [] false kws)]
  | .dir n es =>
      if ignoredRel env (p ++ [n]) then [(n, .mk true [] true [])]
      else [(n, .mk true (specEntriesT env (p ++ [n]) es) false [])]

def specEntriesT (env : WalkEnv) (p : List String) : List FSEntry → List (String × FileSystemNode)
  | [] => []
  | e :: rest => specEntryT env p e ++ specEntriesT env p rest

end

/-! ### Chain existence (needed because the test walker can leave the tree
untouched for a whole sibling list of parse-failing files) -/

def chainExists : FileSystemNode → List String → Prop
  | _, [] => True
  | n, k :: ks =>
      match lookupChild n.children k with
      | some c => chainExists c ks
      | none => False

theorem setChild_self (cs : List (String × FileSystemNode)) (k : String)
    (v : FileSystemNode) (h : lookupChild cs k = some v) :
    setChild cs k v = cs := by
  induction cs with
  | nil => simp [lookupChild] at h
  | cons hd tl ih =>
      obtain ⟨k0, v0⟩ := hd
      by_cases hk : k0 = k
      · subst hk
        have hv : v0 = v := by simpa [lookupChild] using h
        subst hv
        simp [setChild]
      · simp only [lookupChild, if_neg hk] at h
        simp [setChild, hk, ih h]

theorem updAt_id_of_chainExists (p : List String) :
    ∀ (root : FileSystemNode), chainExists root p →
      updAt root p (fun cs => cs) = root := by
  induction p with
  | nil => intro root _; simp [updAt, FileSystemNode.eta]
  | cons k ks ih =>
      intro root h
      simp only [chainExists] at h
      cases hl : lookupChild root.children k with
      | none => rw [hl] at h; exact absurd h (by simp)
      | some c =>
          rw [hl] at h
          simp only [updAt, hl, Option.getD_some]
          rw [ih c h, setChild_self _ _ _ hl, FileSystemNode.eta]

theorem chainExists_updAt (p : List String) :
    ∀ (root : FileSystemNode) (f : List (String × FileSystemNode) → List (String × FileSystemNode)),
      chainExists root p → chainExists (updAt root p f) p := by
  induction p with
  | nil => intro root f _; trivial
  | cons k ks ih =>
      intro root f h
      simp only [chainExists] at h ⊢
      cases hl : lookupChild root.children k with
      | none => rw [hl] at h; exact absurd h (by simp)
      | some c =>
          rw [hl] at h
          simp only [updAt, FileSystemNode.children_mk, hl, Option.getD_some,
            lookupChild_setChild_self]
          exact ih c f h

theorem chainExists_updAt_append (n : String) :
    ∀ (p : List String) (root : FileSystemNode)
      (f : List (String × FileSystemNode) → List (String × FileSystemNode)),
      chainExists root p → lookupChild (f (getAtC root p)) n ≠ none →
      chainExists (updAt root p f) (p ++ [n]) := by
  intro p
  induction p with
  | nil =>
      intro root f _ hn
      simp only [List.nil_append, chainExists, updAt, FileSystemNode.children_mk]
      cases hl : lookupChild (f (getAtC root [])) n with
      | none => exact absurd hl hn
      | some c => simp only [getAtC] at hl; rw [hl]; trivial
  | cons k ks ih =>
      intro root f h hn
      simp only [chainExists] at h
      cases hl : lookupChild root.children k with
      | none => rw [hl] at h; exact absurd h (by simp)
      | some c =>
          rw [hl] at h
          simp only [List.cons_append, chainExists, updAt,
            FileSystemNode.children_mk, hl, Option.getD_some,
            lookupChild_setChild_self]
          apply ih c f h
          simpa only [getAtC, hl, Option.getD_some] using hn

def freshKeysT (env : WalkEnv) (root : FileSystemNode) (p : List String)
    (es : List FSEntry) : Prop :=
  ∀ e ∈ es, lookupChild (getAtC root p) e.name = none

theorem specEntryT_keys (env : WalkEnv) (p : List String) (e : FSEntry)
    {k : String} (h : k ∈ (specEntryT env p e).map Prod.fst) : k = e.name := by
  cases e with
  | file n =>
      by_cases hig : ignoredRel env (p ++ [n])
      · simp [specEntryT, hig] at h; simp [h]
      · cases hpf : parseFile env.readParse (joinRel (p ++ [n])) <;>
          simp [specEntryT, hig, hpf] at h <;> simp [h]
  | dir n es =>
      by_cases hig : ignoredRel env (p ++ [n]) <;>
        simp [specEntryT, hig] at h <;> simp [h]

theorem lookupChild_specEntryT_none (env : WalkEnv) (p : List String)
    (e : FSEntry) {k : String} (h : k ≠ e.name) :
    lookupChild (specEntryT env p e) k = none := by
  rw [lookupChild_eq_none_iff]
  intro hmem
  exact h (specEntryT_keys env p e hmem)

theorem walkEntriesT_spec (env : WalkEnv) :
    ∀ (fuel : Nat) (es : List FSEntry) (root : FileSystemNode) (p : List String),
      sizeOf es ≤ fuel →
      (es.map FSEntry.name).Nodup →
      (∀ e ∈ es, WFEntry e) →
      freshKeysT env root p es →
      chainExists root p →
      walkEntriesT env root p es =
        updAt root p (fun cs => cs ++ specEntriesT env p es) := by
  intro fuel
  induction fuel with
  | zero =>
      intro es root p hs _ _ _ hch
      cases es with
      | nil =>
          rw [walkEntriesT,
            updAt_congr _ _ _ (fun cs => cs) (by simp [specEntriesT]),
            updAt_id_of_chainExists p root hch]
      | cons e rest =>
          exfalso
          simp only [List.cons.sizeOf_spec] at hs
          omega
  | succ fuel ih =>
      intro es root p hs hnd hwf hfresh hch
      cases es with
      | nil =>
          rw [walkEntriesT,
            updAt_congr _ _ _ (fun cs => cs) (by simp [specEntriesT]),
            updAt_id_of_chainExists p root hch]
      | cons e rest =>
      have hfn : lookupChild (getAtC root p) e.name = none :=
        hfresh e (List.mem_cons_self _ _)
      have hwfe : WFEntry e := hwf e (List.mem_cons_self _ _)
      have hhead : walkEntryT env root p e =
          updAt root p (fun cs => cs ++ specEntryT env p e) := by
        cases e with
        | file n =>
            by_cases hig : ignoredRel env (p ++ [n])
            · rw [walkEntryT, if_pos hig,
                insertPath_append _ _ _ _ (by simpa using hfn)]
              apply updAt_congr
              simp [specEntryT, hig]
            · cases hpf : parseFile env.readParse (joinRel (p ++ [n])) with
              | none =>
                  rw [walkEntryT, if_neg hig, hpf,
                    updAt_congr _ _ _ (fun cs => cs)
                      (by simp [specEntryT, hig, hpf]),
                    updAt_id_of_chainExists p root hch]
              | some kws =>
                  rw [walkEntryT, if_neg hig, hpf]
                  show insertPath root p n (FileSystemNode.mk false [] false kws) =
                    updAt root p fun cs => cs ++ specEntryT env p (FSEntry.file n)
                  rw [insertPath_append _ _ _ _ (by simpa using hfn)]
                  apply updAt_congr
                  simp [specEntryT, hig, hpf]
        | dir n es' =>
            simp only [FSEntry.name_dir] at hfn
            by_cases hig : ignoredRel env (p ++ [n])
            · rw [walkEntryT, if_pos hig, insertPath_append _ _ _ _ hfn]
              apply updAt_congr
              simp [specEntryT, hig]
            · rw [walkEntryT, if_neg hig, insertPath_append _ _ _ _ hfn]
              set R2 := updAt root p
                (fun cs => cs ++ [(n, FileSystemNode.mk true [] false [])]) with hR2
              have hdir : wfName n ∧ (es'.map FSEntry.name).Nodup ∧
                  ∀ x ∈ es', WFEntry x := by
                cases hwfe with
                | dir a b c => exact ⟨a, b, c⟩
              obtain ⟨hwfn', hnd', hwf'⟩ := hdir
              have hlookm :
                  lookupChild (getAtC root p ++
                    [(n, FileSystemNode.mk true [] false [])]) n =
                    some (FileSystemNode.mk true [] false []) := by
                rw [lookupChild_append, hfn]
                simp [lookupChild]
              have hchain : getAtC R2 (p ++ [n]) = [] := by
                rw [getAtC_append_chain, hR2]
                simp only [getAtC, getAtC_updAt, FileSystemNode.children_mk]
                rw [hlookm]
                simp
              have hfresh' : freshKeysT env R2 (p ++ [n]) es' := by
                intro x _
                rw [hchain]
                rfl
              have hch' : chainExists R2 (p ++ [n]) := by
                rw [hR2]
                apply chainExists_updAt_append n p root _ hch
                rw [hlookm]
                simp
              have hsz : sizeOf es' ≤ fuel := by
                simp only [List.cons.sizeOf_spec, FSEntry.dir.sizeOf_spec] at hs
                omega
              rw [ih es' R2 (p ++ [n]) hsz hnd' hwf' hfresh' hch']
              rw [updAt_append, hR2, updAt_updAt]
              apply updAt_congr
              simp only [updAt, FileSystemNode.children_mk, hlookm,
                Option.getD_some, FileSystemNode.directory_mk,
                FileSystemNode.skip_mk, FileSystemNode.keywords_mk]
              rw [setChild_append_last _ _ _ _ hfn]
              simp [specEntryT, hig]
      have hstep : walkEntriesT env root p (e :: rest) =
          walkEntriesT env (walkEntryT env root p e) p rest := by
        rw [walkEntriesT]
      rw [hstep, hhead]
      have hndrest : (rest.map FSEntry.name).Nodup := (List.nodup_cons.mp hnd).2
      have hfresh2 : freshKeysT env
          (updAt root p (fun cs => cs ++ specEntryT env p e)) p rest := by
        intro x hx
        have hne : x.name ≠ e.name := by
          intro hcon
          exact (List.nodup_cons.mp hnd).1
            (hcon ▸ List.mem_map_of_mem FSEntry.name hx)
        rw [getAtC_updAt, lookupChild_append,
          hfresh x (List.mem_cons_of_mem _ hx),
          lookupChild_specEntryT_none env p e hne]
      have hch2 : chainExists
          (updAt root p (fun cs => cs ++ specEntryT env p e)) p :=
        chainExists_updAt p root _ hch
      have hsz2 : sizeOf rest ≤ fuel := by
        simp only [List.cons.sizeOf_spec] at hs
        omega
      rw [ih rest _ p hsz2 hndrest
        (fun x hx => hwf x (List.mem_cons_of_mem _ hx)) hfresh2 hch2]
      rw [updAt_updAt]
      apply updAt_congr
      simp [specEntriesT, List.append_assoc]

/-- The full test-app snapshot tree equals its spec. -/
theorem getContextFileTreeT_spec (env : WalkEnv) (es : List FSEntry)
    (hnd : (es.map FSEntry.name).Nodup) (hwf : ∀ e ∈ es, WFEntry e) :
    (getContextFileTreeT env es).2 =
      .mk true (specEntriesT env [] es) false [] := by
  unfold getContextFileTreeT
  have hfresh : freshKeysT env (.mk true [] false []) [] es := by
    intro e _
    simp [getAtC, lookupChild]
  rw [walkEntriesT_spec env (sizeOf es) es _ [] le_rfl hnd hwf hfresh trivial]
  simp [updAt]

/-- The node (if any) stored for an entry in the test tree. -/
def markerT (env : WalkEnv) (p : List String) : FSEntry → Option FileSystemNode
  | .file n =>
      if ignoredRel env (p ++ [n]) then some (.mk false [] true [])
      else
        match parseFile env.readParse (joinRel (p ++ [n])) with
        | none => none
        | some kws => some (.mk false [] false kws)
  | .dir n es =>
      if ignoredRel env (p ++ [n]) then some (.mk true [] true [])
      else some (.mk true (specEntriesT env (p ++ [n]) es) false [])

theorem lookupChild_specEntryT_self (env : WalkEnv) (p : List String)
    (e : FSEntry) :
    lookupChild (specEntryT env p e) e.name = markerT env p e := by
  cases e with
  | file n =>
      by_cases hig : ignoredRel env (p ++ [n])
      · simp [specEntryT, markerT, hig, lookupChild]
      · cases hpf : parseFile env.readParse (joinRel (p ++ [n])) <;>
          simp [specEntryT, markerT, hig, hpf, lookupChild]
  | dir n es =>
      by_cases hig : ignoredRel env (p ++ [n]) <;>
        simp [specEntryT, markerT, hig, lookupChild]

theorem lookupChild_specEntriesT_none_of_names (env : WalkEnv)
    (p : List String) :
    ∀ (es : List FSEntry) (k : String), (∀ e ∈ es, e.name ≠ k) →
      lookupChild (specEntriesT env p es) k = none := by
  intro es
  induction es with
  | nil => intro k _; simp [specEntriesT, lookupChild]
  | cons hd tl ih =>
      intro k h
      rw [specEntriesT, lookupChild_append,
        lookupChild_specEntryT_none env p hd
          (fun hc => h hd (List.mem_cons_self _ _) hc.symm)]
      exact ih k (fun e he => h e (List.mem_cons_of_mem _ he))

theorem lookupChild_specEntriesT_of_mem (env : WalkEnv) (p : List String) :
    ∀ (es : List FSEntry) (e : FSEntry), e ∈ es →
      (es.map FSEntry.name).Nodup →
      lookupChild (specEntriesT env p es) e.name = markerT env p e := by
  intro es
  induction es with
  | nil => intro e he; exact absurd he (List.not_mem_nil e)
  | cons hd tl ih =>
      intro e he hnd
      rcases List.mem_cons.mp he with rfl | he'
      · rw [specEntriesT, lookupChild_append, lookupChild_specEntryT_self]
        cases hmk : markerT env p e with
        | some v => simp
        | none =>
            simp only []
            apply lookupChild_specEntriesT_none_of_names
            intro x hx hcon
            exact (List.nodup_cons.mp hnd).1
              (hcon ▸ List.mem_map_of_mem FSEntry.name hx)
      · have hne : e.name ≠ hd.name := by
          intro hcon
          exact (List.nodup_cons.mp hnd).1
            (hcon ▸ List.mem_map_of_mem FSEntry.name he')
        rw [specEntriesT, lookupChild_append,
          lookupChild_specEntryT_none env p hd hne]
        exact ih e he' (List.nodup_cons.mp hnd).2

theorem getPath_specT_chain (env : WalkEnv) :
    ∀ (q : List String) (es sub : List FSEntry) (p : List String),
      DirChainAt es q sub → WFEntries es →
      (∀ i, 0 < i → i ≤ q.length → ignoredRel env (p ++ q.take i) = false) →
      getPath (.mk true (specEntriesT env p es) false []) q =
        some (.mk true (specEntriesT env (p ++ q) sub) false []) := by
  intro q
  induction q with
  | nil =>
      intro es sub p hchain _ _
      cases hchain
      simp [getPath]
  | cons d q2 ih =>
      intro es sub p hchain hwf hclear
      cases hchain with
      | @cons _ sub' _ _ _ hm hchain' =>
      have hig : ignoredRel env (p ++ [d]) = false := by
        have := hclear 1 (by omega) (by simp)
        simpa using this
      have hlook : lookupChild (specEntriesT env p es) d =
          some (.mk true (specEntriesT env (p ++ [d]) sub') false []) := by
        have hmk := lookupChild_specEntriesT_of_mem env p es (.dir d sub') hm hwf.1
        simp only [FSEntry.name_dir] at hmk
        rw [hmk, markerT, if_neg (by simp [hig])]
      rw [show getPath (FileSystemNode.mk true (specEntriesT env p es) false [])
            (d :: q2) =
            getPath (.mk true (specEntriesT env (p ++ [d]) sub') false []) q2 by
          simp [getPath, hlook]]
      have hres := ih sub' sub (p ++ [d]) hchain'
        (WFEntries_of_dir_mem hwf hm) ?_
      · rw [hres]
        simp
      · intro i hi hile
        have := hclear (i + 1) (by omega) (by simpa using Nat.succ_le_succ hile)
        simpa [List.take_succ_cons, List.append_assoc] using this

/-- Soundness for the test tree: a non-ignored file below a clear chain is
present at its per-segment position exactly when its extraction succeeds,
and carries the extracted keywords; on extraction failure it is absent. -/
theorem getPath_testTree_file (env : WalkEnv) (es : List FSEntry)
    (hwf : WFEntries es) {parts : List String} {m : String}
    (hat : EntryAt es parts (.file m))
    (hclear : ∀ i, 0 < i → i < parts.length →
      ignoredRel env (parts.take i) = false)
    (hig : ignoredRel env parts = false) :
    getPath (getContextFileTreeT env es).2 parts =
      match parseFile env.readParse (joinRel parts) with
      | none => none
      | some kws => some (.mk false [] false kws) := by
  obtain ⟨q, sub, hparts, hchain, hmem⟩ := EntryAt_decompose hat
  simp only [FSEntry.name_file] at hparts
  subst hparts
  rw [getContextFileTreeT_spec env es hwf.1 hwf.2]
  rw [getPath_append]
  have hsubwf : WFEntries sub := (DirChainAt_wf hwf hchain).2
  rw [getPath_specT_chain env q es sub [] hchain hwf ?clear]
  case clear =>
    intro i hi hile
    have h1 := hclear i hi (by simp; omega)
    rwa [List.take_append_of_le_length hile] at h1
  have hmk := lookupChild_specEntriesT_of_mem env q sub (.file m) hmem hsubwf.1
  simp only [FSEntry.name_file] at hmk
  have hig2 : ¬(ignoredRel env (q ++ [m]) = true) := by simpa using hig
  simp only [List.nil_append, getPath, FileSystemNode.children_mk, hmk,
    markerT, if_neg hig2]
  cases hpf : parseFile env.readParse (joinRel (q ++ [m])) <;> simp [getPath]

theorem lookupChild_specEntryT_cases (env : WalkEnv) (p : List String)
    (e : FSEntry) (k : String) (v : FileSystemNode)
    (h : lookupChild (specEntryT env p e) k = some v) :
    k = e.name ∧ markerT env p e = some v := by
  by_cases hk : k = e.name
  · subst hk
    rw [lookupChild_specEntryT_self] at h
    exact ⟨rfl, h⟩
  · rw [lookupChild_specEntryT_none env p e hk] at h
    exact absurd h (by simp)

theorem lookupChild_specEntriesT_cases (env : WalkEnv) (p : List String) :
    ∀ (es : List FSEntry) (k : String) (v : FileSystemNode),
      lookupChild (specEntriesT env p es) k = some v →
      ∃ e ∈ es, lookupChild (specEntryT env p e) k = some v := by
  intro es
  induction es with
  | nil => intro k v h; simp [specEntriesT, lookupChild] at h
  | cons hd tl ih =>
      intro k v h
      rw [specEntriesT, lookupChild_append] at h
      cases hh : lookupChild (specEntryT env p hd) k with
      | some w =>
          rw [hh] at h
          exact ⟨hd, List.mem_cons_self _ _, by rw [hh, ← h]⟩
      | none =>
          rw [hh] at h
          obtain ⟨e, hme, he⟩ := ih k v h
          exact ⟨e, List.mem_cons_of_mem _ hme, he⟩

/-- Completeness for the test tree: every included-file node is a
non-ignored, successfully parsed file at its per-segment position. -/
theorem specT_complete (env : WalkEnv) :
    ∀ (ks : List String) (es : List FSEntry) (p : List String)
      (nd : FileSystemNode), WFEntries es →
      getPath (.mk true (specEntriesT env p es) false []) ks = some nd →
      nd.directory = false → nd.skip = false →
      ∃ q sub m kws, DirChainAt es q sub ∧ FSEntry.file m ∈ sub ∧
        ignoredRel env (p ++ (q ++ [m])) = false ∧
        parseFile env.readParse (joinRel (p ++ (q ++ [m]))) = some kws ∧
        ks = q ++ [m] ∧ nd = .mk false [] false kws := by
  intro ks
  induction ks with
  | nil =>
      intro es p nd hwf hg hdir hskip
      simp only [getPath, Option.some.injEq] at hg
      rw [← hg] at hdir
      simp at hdir
  | cons k ks2 ih =>
      intro es p nd hwf hg hdir hskip
      simp only [getPath, FileSystemNode.children_mk] at hg
      cases hl : lookupChild (specEntriesT env p es) k with
      | none => rw [hl] at hg; exact absurd hg (by simp)
      | some v =>
          rw [hl] at hg
          obtain ⟨e, hme, hblock⟩ := lookupChild_specEntriesT_cases env p es k v hl
          obtain ⟨hk, hmk⟩ := lookupChild_specEntryT_cases env p e k v hblock
          cases e with
          | file n =>
              simp only [FSEntry.name_file] at hk
              by_cases hig : ignoredRel env (p ++ [n])
              · rw [markerT, if_pos hig, Option.some.injEq] at hmk
                exfalso
                cases ks2 with
                | nil =>
                    simp only [getPath, Option.some.injEq] at hg
                    rw [← hg, ← hmk] at hskip
                    simp at hskip
                | cons k3 ks3 =>
                    rw [← hmk] at hg
                    simp [getPath, lookupChild] at hg
              · rw [markerT, if_neg hig] at hmk
                cases hpf : parseFile env.readParse (joinRel (p ++ [n])) with
                | none => rw [hpf] at hmk; exact absurd hmk (by simp)
                | some kws =>
                    rw [hpf, Option.some.injEq] at hmk
                    cases ks2 with
                    | nil =>
                        simp only [getPath, Option.some.injEq] at hg
                        refine ⟨[], es, n, kws, .nil, hme, ?_, ?_, ?_, ?_⟩
                        · simpa using hig
                        · simpa using hpf
                        · simp [hk]
                        · rw [← hg, ← hmk]
                    | cons k3 ks3 =>
                        exfalso
                        rw [← hmk] at hg
                        simp [getPath, lookupChild] at hg
          | dir n sub =>
              simp only [FSEntry.name_dir] at hk
              by_cases hig : ignoredRel env (p ++ [n])
              · rw [markerT, if_pos hig, Option.some.injEq] at hmk
                exfalso
                cases ks2 with
                | nil =>
                    simp only [getPath, Option.some.injEq] at hg
                    rw [← hg, ← hmk] at hdir
                    simp at hdir
                | cons k3 ks3 =>
                    rw [← hmk] at hg
                    simp [getPath, lookupChild] at hg
              · rw [markerT, if_neg hig, Option.some.injEq] at hmk
                cases ks2 with
                | nil =>
                    exfalso
                    simp only [getPath, Option.some.injEq] at hg
                    rw [← hg, ← hmk] at hdir
                    simp at hdir
                | cons k3 ks3 =>
                    rw [← hmk] at hg
                    obtain ⟨q2, sub2, m, kws, hchain2, hmem2, hig3, hpf3, hks3, hnd⟩ :=
                      ih sub (p ++ [n]) nd (WFEntries_of_dir_mem hwf hme) hg hdir hskip
                    refine ⟨n :: q2, sub2, m, kws, .cons hme hchain2, hmem2, ?_, ?_, ?_, ?_⟩
                    · simpa [List.append_assoc] using hig3
                    · simpa [List.append_assoc] using hpf3
                    · rw [hk, hks3]
                      simp
                    · exact hnd

def FSEntry.isDir : FSEntry → Bool
  | .file _ => false
  | .dir _ _ => true

theorem EntryAt_wfNames {es : List FSEntry} {parts : List String} {e : FSEntry}
    (hwf : WFEntries es) (hat : EntryAt es parts e) :
    (∀ s ∈ parts, wfName s) ∧ parts ≠ [] := by
  obtain ⟨q, sub, hparts, hchain, hmem⟩ := EntryAt_decompose hat
  obtain ⟨hq, hsubwf⟩ := DirChainAt_wf hwf hchain
  subst hparts
  refine ⟨?_, by simp⟩
  intro s hs
  rcases List.mem_append.mp hs with hs | hs
  · exact hq s hs
  · rw [List.mem_singleton.mp hs]
    exact (hsubwf.2 e hmem).wf_name

/-- An ignored entry leaves an excluded leaf marker in the client tree,
keyed by its full relative path. -/
theorem getPath_clientTree_ignored (env : WalkEnv) (es : List FSEntry)
    (hwf : WFEntries es) {parts : List String} {e : FSEntry}
    (hat : EntryAt es parts e)
    (hclear : ∀ i, 0 < i → i < parts.length →
      ignoredRel env (parts.take i) = false)
    (hig : ignoredRel env parts = true) :
    getPath (getContextFileTreeC env es).2 (parts.dropLast ++ [joinRel parts]) =
      some (.mk e.isDir [] true []) := by
  obtain ⟨q, sub, hparts, hchain, hmem⟩ := EntryAt_decompose hat
  subst hparts
  rw [getContextFileTreeC_spec env es hwf.1 hwf.2]
  rw [List.dropLast_concat, getPath_append]
  have hsubwf : WFEntries sub := (DirChainAt_wf hwf hchain).2
  rw [getPath_specC_chain env q es sub [] hchain hwf ?clear
    (List.ne_nil_of_mem hmem)]
  case clear =>
    intro i hi hile
    have h1 := hclear i hi (by simp; omega)
    rwa [List.take_append_of_le_length hile] at h1
  have hmk := lookupChild_specEntriesC_of_mem env q sub e hmem
    hsubwf.1 hsubwf.2
  simp only [List.nil_append] at hig ⊢
  simp only [getPath, FileSystemNode.children_mk, hmk]
  cases e with
  | file n =>
      simp only [FSEntry.name_file] at hig
      simp [markerC, FSEntry.isDir, hig]
  | dir n sub2 =>
      simp only [FSEntry.name_dir] at hig
      simp [markerC, FSEntry.isDir, hig]

/-- An ignored entry contributes no per-segment subtree to the client
tree: nothing is reachable below its bare-name edge. -/
theorem getPath_clientTree_ignored_noSub (env : WalkEnv) (es : List FSEntry)
    (hwf : WFEntries es) {parts : List String} {e : FSEntry}
    (hat : EntryAt es parts e)
    (hclear : ∀ i, 0 < i → i < parts.length →
      ignoredRel env (parts.take i) = false)
    (hig : ignoredRel env parts = true) :
    ∀ ks, ks ≠ [] →
      getPath (getContextFileTreeC env es).2 (parts ++ ks) = none := by
  intro ks hks
  obtain ⟨q, sub, hparts, hchain, hmem⟩ := EntryAt_decompose hat
  subst hparts
  rw [getContextFileTreeC_spec env es hwf.1 hwf.2]
  have hsubwf : WFEntries sub := (DirChainAt_wf hwf hchain).2
  have hchainnav := getPath_specC_chain env q es sub [] hchain hwf ?clear
    (List.ne_nil_of_mem hmem)
  case clear =>
    intro i hi hile
    have h1 := hclear i hi (by simp; omega)
    rwa [List.take_append_of_le_length hile] at h1
  rw [show (q ++ [e.name]) ++ ks = q ++ (e.name :: ks) by simp]
  rw [getPath_append, hchainnav]
  by_cases hq : q = []
  · subst hq
    simp only [List.nil_append] at hig
    have hmk := lookupChild_specEntriesC_of_mem env [] sub e hmem
      hsubwf.1 hsubwf.2
    have hkey : joinRel ([] ++ [e.name]) = e.name := by simp [joinRel]
    rw [hkey] at hmk
    cases ks with
    | nil => exact absurd rfl hks
    | cons k3 ks3 =>
        cases e with
        | file n =>
            simp only [FSEntry.name_file] at hig hmk
            simp [getPath, hmk, markerC, hig, lookupChild]
        | dir n sub2 =>
            simp only [FSEntry.name_dir] at hig hmk
            simp [getPath, hmk, markerC, hig, lookupChild]
  · have hwfe : wfName e.name := (hsubwf.2 e hmem).wf_name
    have hnone : lookupChild (specEntriesC env q sub) e.name = none := by
      apply lookupChild_specEntriesC_no_dkey env q hq e.name hwfe sub
      intro sub2 hm2
      left
      have hsame : FSEntry.dir e.name sub2 = e := by
        apply List.inj_on_of_nodup_map hsubwf.1 hm2 hmem
        simp
      rw [← hsame] at hig
      simpa using hig
    cases ks with
    | nil => exact absurd rfl hks
    | cons k3 ks3 =>
        simp only [List.nil_append]
        simp [getPath, hnone]

/-- An ignored entry leaves an excluded leaf marker in the test tree at
its per-segment position. -/
theorem getPath_testTree_ignored (env : WalkEnv) (es : List FSEntry)
    (hwf : WFEntries es) {parts : List String} {e : FSEntry}
    (hat : EntryAt es parts e)
    (hclear : ∀ i, 0 < i → i < parts.length →
      ignoredRel env (parts.take i) = false)
    (hig : ignoredRel env parts = true) :
    getPath (getContextFileTreeT env es).2 parts =
      some (.mk e.isDir [] true []) := by
  obtain ⟨q, sub, hparts, hchain, hmem⟩ := EntryAt_decompose hat
  subst hparts
  rw [getContextFileTreeT_spec env es hwf.1 hwf.2]
  rw [getPath_append]
  have hsubwf : WFEntries sub := (DirChainAt_wf hwf hchain).2
  rw [getPath_specT_chain env q es sub [] hchain hwf ?clear]
  case clear =>
    intro i hi hile
    have h1 := hclear i hi (by simp; omega)
    rwa [List.take_append_of_le_length hile] at h1
  have hmk := lookupChild_specEntriesT_of_mem env q sub e hmem hsubwf.1
  simp only [List.nil_append] at hig ⊢
  simp only [getPath, FileSystemNode.children_mk, hmk]
  cases e with
  | file n =>
      simp only [FSEntry.name_file] at hig
      simp [markerT, FSEntry.isDir, hig, getPath]
  | dir n sub2 =>
      simp only [FSEntry.name_dir] at hig
      simp [markerT, FSEntry.isDir, hig, getPath]

/-! ## Concrete inputs for counterexamples and witnesses -/

/-- A walk environment with an empty ignore list, a glob primitive that
matches nothing, and a read-and-parse pipeline that yields the identifier
list `["x"]` for every readable supported file. -/
def exampleEnv : WalkEnv :=
  { fpMatch := fun _ _ => false
    readParse := fun _ => some ["x"]
    il := []
    dirPath := "/r" }

/-- A directory `a` containing the file `a/b.go`. -/
def exampleFS1 : List FSEntry := [.dir "a" [.file "b.go"]]

/-- A single file `README.md` (no extractor for `.md`). -/
def exampleFS2 : List FSEntry := [.file "README.md"]

theorem exampleFS1_at : EntryAt exampleFS1 ["a", "b.go"] (.file "b.go") := by
  have hmem1 : FSEntry.file "b.go" ∈ [FSEntry.file "b.go"] := by simp
  have hat1 : EntryAt [FSEntry.file "b.go"] ["b.go"] (.file "b.go") := .here hmem1
  have hmem2 : FSEntry.dir "a" [FSEntry.file "b.go"] ∈ exampleFS1 := by
    simp [exampleFS1]
  exact .there hmem2 hat1

theorem exampleFS2_at : EntryAt exampleFS2 ["README.md"] (.file "README.md") := by
  have hmem : FSEntry.file "README.md" ∈ exampleFS2 := by simp [exampleFS2]
  exact .here hmem

theorem exampleFS1_wf : WFEntries exampleFS1 := by
  constructor
  · decide
  · intro e he
    simp only [exampleFS1, List.mem_singleton] at he
    subst he
    exact .dir (by decide) (by decide)
      (fun x hx => by
        simp only [List.mem_singleton] at hx
        subst hx
        exact .file (by decide))

/-- C1 counterexample: in the tree built by the client walker over a root
holding `a/b.go` (nothing ignored), following one child edge per path
segment (`"a"` then `"b.go"`) finds nothing — the file's node hangs under
its parent by the full relative path `"a/b.go"` instead.  The test-app
walker keys per segment, but silently omits the non-ignored `README.md`
because no extractor exists for `.md`. -/
theorem client_fullpath_key_counterexample :
    EntryAt exampleFS1 ["a", "b.go"] (.file "b.go") ∧
    ignoredRel exampleEnv ["a", "b.go"] = false ∧
    getPath (getContextFileTreeC exampleEnv exampleFS1).2 ["a", "b.go"] = none ∧
    getPath (getContextFileTreeC exampleEnv exampleFS1).2 ["a", "a/b.go"] =
      some (.mk false [] false ["x"]) ∧
    EntryAt exampleFS2 ["README.md"] (.file "README.md") ∧
    ignoredRel exampleEnv ["README.md"] = false ∧
    getPath (getContextFileTreeT exampleEnv exampleFS2).2 ["README.md"] = none := by
  exact ⟨exampleFS1_at, rfl, rfl, rfl, exampleFS2_at, rfl, rfl⟩

/-- C1 (amended): in the client builder every non-ignored file below a
non-ignored chain appears exactly once, reached by one per-segment child
edge per ancestor directory and a final child edge labelled with the
file's FULL relative path (not its last segment); any included-file node
whose final key is that relative path sits exactly there.  In the
test-app builder edges are labelled with single segments, but a file
appears — exactly once, at its segment path — only if its identifier
extraction succeeds; extraction failures are omitted, and every
included-file node of the test tree is such a successfully parsed
non-ignored file at its segment path. -/
theorem snapshot_file_position_amended (env : WalkEnv) (es : List FSEntry)
    (hwf : WFEntries es) {parts : List String} {m : String}
    (hat : EntryAt es parts (.file m))
    (hclear : ∀ i, 0 < i → i < parts.length →
      ignoredRel env (parts.take i) = false)
    (hig : ignoredRel env parts = false) :
    (getPath (getContextFileTreeC env es).2 (parts.dropLast ++ [joinRel parts]) =
        some (clientFileNode env.readParse (joinRel parts)) ∧
      ∀ ks nd, getPath (getContextFileTreeC env es).2 ks = some nd →
        nd.directory = false → nd.skip = false →
        ks.getLast? = some (joinRel parts) →
        ks = parts.dropLast ++ [joinRel parts]) ∧
    ((∀ kws, parseFile env.readParse (joinRel parts) = some kws →
        getPath (getContextFileTreeT env es).2 parts =
          some (.mk false [] false kws)) ∧
      (parseFile env.readParse (joinRel parts) = none →
        getPath (getContextFileTreeT env es).2 parts = none) ∧
      ∀ ks nd, getPath (getContextFileTreeT env es).2 ks = some nd →
        nd.directory = false → nd.skip = false →
        ∃ q sub m2 kws, DirChainAt es q sub ∧ FSEntry.file m2 ∈ sub ∧
          ignoredRel env (q ++ [m2]) = false ∧
          parseFile env.readParse (joinRel (q ++ [m2])) = some kws ∧
          ks = q ++ [m2] ∧ nd = .mk false [] false kws) := by
  refine ⟨⟨getPath_clientTree_file env es hwf hat hclear hig, ?_⟩, ?_, ?_, ?_⟩
  · intro ks nd hg hdir hskip hlast
    rw [getContextFileTreeC_spec env es hwf.1 hwf.2] at hg
    obtain ⟨q2, sub2, m2, hchain2, hmem2, hig2, hks2, hnd2⟩ :=
      specC_complete env ks es [] nd hwf hg hdir hskip
    simp only [List.nil_append] at hig2 hks2 hnd2
    rw [hks2] at hlast
    rw [List.getLast?_concat] at hlast
    have hjoin : joinRel (q2 ++ [m2]) = joinRel parts := by simpa using hlast
    obtain ⟨hq2wf, hsub2wf⟩ := DirChainAt_wf hwf hchain2
    have hm2wf : wfName m2 := (hsub2wf.2 _ hmem2).wf_name
    obtain ⟨hpartswf, hpartsne⟩ := EntryAt_wfNames hwf hat
    have hparts_eq : q2 ++ [m2] = parts := by
      apply joinRel_inj _ _ (by simp) hpartsne ?_ hpartswf hjoin
      intro x hx
      rcases List.mem_append.mp hx with hx | hx
      · exact hq2wf x hx
      · rw [List.mem_singleton.mp hx]
        exact hm2wf
    rw [hks2, hjoin,
      show q2 = parts.dropLast by rw [← hparts_eq, List.dropLast_concat]]
  · intro kws hpf
    have hm := getPath_testTree_file env es hwf hat hclear hig
    rw [hpf] at hm
    exact hm
  · intro hpf
    have hm := getPath_testTree_file env es hwf hat hclear hig
    rw [hpf] at hm
    exact hm
  · intro ks nd hg hdir hskip
    rw [getContextFileTreeT_spec env es hwf.1 hwf.2] at hg
    obtain ⟨q2, sub2, m2, kws, hchain2, hmem2, hig2, hpf2, hks2, hnd2⟩ :=
      specT_complete env ks es [] nd hwf hg hdir hskip
    simp only [List.nil_append] at hig2 hpf2
    exact ⟨q2, sub2, m2, kws, hchain2, hmem2, hig2, hpf2, hks2, hnd2⟩

/-- Witness for the amended C1 theorem at the concrete input
`[dir "a" [file "b.go"]]` with nothing ignored. -/
theorem snapshot_file_position_amended_witness :
    getPath (getContextFileTreeC exampleEnv exampleFS1).2 ["a", "a/b.go"] =
      some (clientFileNode exampleEnv.readParse (joinRel ["a", "b.go"])) ∧
    getPath (getContextFileTreeT exampleEnv exampleFS1).2 ["a", "b.go"] =
      some (.mk false [] false ["x"]) := by
  have h := @snapshot_file_position_amended exampleEnv exampleFS1 exampleFS1_wf
    ["a", "b.go"] "b.go"
    exampleFS1_at
    (by
      intro i h1 h2
      simp only [List.length_cons, List.length_nil] at h2
      have : i = 1 := by omega
      subst this
      rfl)
    rfl
  refine ⟨h.1.1, ?_⟩
  exact h.2.1 ["x"] rfl

/-- Environment whose glob primitive is literal equality and whose ignore
list holds the single pattern `ign`. -/
def exampleEnvIgn : WalkEnv :=
  { fpMatch := fun pattern nm => pattern == nm
    readParse := fun _ => some ["x"]
    il := ["ign"]
    dirPath := "/r" }

/-- A directory `ign` (matching the ignore pattern) containing `c.go`,
next to a file `d.go`. -/
def exampleFS3 : List FSEntry := [.dir "ign" [.file "c.go"], .file "d.go"]

theorem exampleFS3_wf : WFEntries exampleFS3 := by
  constructor
  · decide
  · intro e he
    simp only [exampleFS3, List.mem_cons, List.not_mem_nil, or_false] at he
    rcases he with rfl | rfl
    · exact .dir (by decide) (by decide)
        (fun x hx => by
          simp only [List.mem_singleton] at hx
          subst hx
          exact .file (by decide))
    · exact .file (by decide)

theorem exampleFS2_wf : WFEntries exampleFS2 := by
  constructor
  · decide
  · intro e he
    simp only [exampleFS2, List.mem_singleton] at he
    subst he
    exact .file (by decide)

/-- C4 (confirmed): a walked entry that matches the ignore list (below a
non-ignored chain) is stored as an excluded leaf marker — `Skip` in the
client tree (keyed by full relative path), `Ignore` in the test tree
(keyed per segment) — with the `Directory` flag of the entry, and if the
entry is a directory the walk does not descend: nothing at all is
reachable below the marker, nor below the entry's per-segment edge, in
either tree. -/
theorem ignored_entry_leaf_marker (env : WalkEnv) (es : List FSEntry)
    (hwf : WFEntries es) {parts : List String} {e : FSEntry}
    (hat : EntryAt es parts e)
    (hclear : ∀ i, 0 < i → i < parts.length →
      ignoredRel env (parts.take i) = false)
    (hig : ignoredRel env parts = true) :
    (getPath (getContextFileTreeC env es).2 (parts.dropLast ++ [joinRel parts]) =
        some (.mk e.isDir [] true []) ∧
      (∀ ks, ks ≠ [] →
        getPath (getContextFileTreeC env es).2
          (parts.dropLast ++ [joinRel parts] ++ ks) = none) ∧
      (∀ ks, ks ≠ [] →
        getPath (getContextFileTreeC env es).2 (parts ++ ks) = none)) ∧
    (getPath (getContextFileTreeT env es).2 parts =
        some (.mk e.isDir [] true []) ∧
      ∀ ks, ks ≠ [] →
        getPath (getContextFileTreeT env es).2 (parts ++ ks) = none) := by
  have hC := getPath_clientTree_ignored env es hwf hat hclear hig
  have hT := getPath_testTree_ignored env es hwf hat hclear hig
  refine ⟨⟨hC, ?_, getPath_clientTree_ignored_noSub env es hwf hat hclear hig⟩,
    hT, ?_⟩
  · intro ks hks
    rw [getPath_append, hC]
    cases ks with
    | nil => exact absurd rfl hks
    | cons k3 ks3 => exact getPath_children_nil (by simp) k3 ks3
  · intro ks hks
    rw [getPath_append, hT]
    cases ks with
    | nil => exact absurd rfl hks
    | cons k3 ks3 => exact getPath_children_nil (by simp) k3 ks3

/-- Witness for C4 at the concrete ignored directory `ign` holding
`c.go`. -/
theorem ignored_entry_leaf_marker_witness :
    getPath (getContextFileTreeC exampleEnvIgn exampleFS3).2 ["ign"] =
      some (.mk true [] true []) ∧
    getPath (getContextFileTreeC exampleEnvIgn exampleFS3).2 ["ign", "c.go"] = none ∧
    getPath (getContextFileTreeT exampleEnvIgn exampleFS3).2 ["ign"] =
      some (.mk true [] true []) ∧
    getPath (getContextFileTreeT exampleEnvIgn exampleFS3).2 ["ign", "c.go"] = none := by
  have hat : EntryAt exampleFS3 ["ign"] (.dir "ign" [.file "c.go"]) := by
    have hmem : FSEntry.dir "ign" [FSEntry.file "c.go"] ∈ exampleFS3 := by
      simp [exampleFS3]
    exact .here hmem
  have h := ignored_entry_leaf_marker exampleEnvIgn exampleFS3 exampleFS3_wf hat
    (by
      intro i h1 h2
      simp only [List.length_cons, List.length_nil] at h2
      omega)
    rfl
  exact ⟨h.1.1, h.1.2.2 ["c.go"] (by simp), h.2.1, h.2.2 ["c.go"] (by simp)⟩

/-! ## C7: unsupported extensions and extraction failures -/

theorem getLanguage_eq_none {s : String}
    (h1 : s.startsWith "Dockerfile" = false)
    (h2 : goFilepathExt s ∉
      ([".go", ".jsx", ".js", ".py", ".tsx", ".ts"] : List String)) :
    getLanguage s = none := by
  unfold getLanguage
  rw [if_neg (by simp [h1])]
  simp only [List.mem_cons, List.mem_singleton, not_or] at h2
  obtain ⟨e1, e2, e3, e4, e5, e6⟩ := h2
  simp [e1, e2, e3, e4, e5, e6]

theorem parseFile_eq_none (readParse : String → Option (List String))
    (fp : String)
    (h : getLanguage (goStripDotSlashOnce fp) = none ∨
      readParse (goStripDotSlashOnce fp) = none) :
    parseFile readParse fp = none := by
  unfold parseFile
  rcases h with h | h
  · simp [h]
  · cases hl : getLanguage (goStripDotSlashOnce fp) <;> simp [hl, h]

/-- C7 (confirmed, for the client builder whose lines the claim cites): a
non-ignored file whose (`"./"`-stripped) path neither starts with
`Dockerfile` nor carries one of the supported extensions — or whose
read/extraction pipeline fails — does not abort the walk: the client tree
keeps a file node for it with an empty keyword set. -/
theorem unsupported_extraction_kept_empty (env : WalkEnv) (es : List FSEntry)
    (hwf : WFEntries es) {parts : List String} {m : String}
    (hat : EntryAt es parts (.file m))
    (hclear : ∀ i, 0 < i → i < parts.length →
      ignoredRel env (parts.take i) = false)
    (hig : ignoredRel env parts = false)
    (hfail : ((goStripDotSlashOnce (joinRel parts)).startsWith "Dockerfile" = false ∧
        goFilepathExt (goStripDotSlashOnce (joinRel parts)) ∉
          ([".go", ".jsx", ".js", ".py", ".tsx", ".ts"] : List String)) ∨
      env.readParse (goStripDotSlashOnce (joinRel parts)) = none) :
    getPath (getContextFileTreeC env es).2 (parts.dropLast ++ [joinRel parts]) =
      some (.mk false [] false []) := by
  have hpf : parseFile env.readParse (joinRel parts) = none := by
    apply parseFile_eq_none
    rcases hfail with ⟨h1, h2⟩ | h
    · exact Or.inl (getLanguage_eq_none h1 h2)
    · exact Or.inr h
  have hcf : clientFileNode env.readParse (joinRel parts) =
      .mk false [] false [] := by
    unfold clientFileNode
    rw [hpf]
  have h := getPath_clientTree_file env es hwf hat hclear hig
  rw [h, hcf]

/-- Witness for C7 at the concrete unsupported file `README.md`. -/
theorem unsupported_extraction_kept_empty_witness :
    getPath (getContextFileTreeC exampleEnv exampleFS2).2 ["README.md"] =
      some (.mk false [] false []) := by
  have h := unsupported_extraction_kept_empty exampleEnv exampleFS2 exampleFS2_wf
    exampleFS2_at
    (by
      intro i h1 h2
      simp only [List.length_cons, List.length_nil] at h2
      omega)
    rfl
    (Or.inl ⟨by decide, by decide⟩)
  exact h

/-- C8 (confirmed): loading the ignore file skips blank and `#`-comment
lines (after trimming); a missing file yields the empty pattern set; and
with an empty pattern set the matcher rejects every path, whatever the
glob primitive does. -/
theorem loadIgnoreList_spec :
    (loadIgnoreList none = []) ∧
    (∀ (lines : List String) (p : String),
      p ∈ loadIgnoreList (some lines) ↔
        (∃ l ∈ lines, l.trim = p) ∧ p ≠ "" ∧ p.startsWith "#" = false) ∧
    (∀ (fpMatch : String → String → Bool) (path : String),
      matchesIgnoreList fpMatch path [] = false) := by
  refine ⟨rfl, ?_, fun _ _ => rfl⟩
  intro lines p
  simp only [loadIgnoreList, List.mem_dedup, List.mem_filter, List.mem_map,
    Bool.and_eq_true, bne_iff_ne, ne_eq, Bool.not_eq_true']

/-! ## Identifier extraction: apps/client/mapper/mapper.go

A tree-sitter syntax node is modelled by its queried attributes:
`IsNamed()`, `Kind()`, `StartByte()`/`EndByte()` and the list of its
named children (`NamedChildCount()`/`NamedChild(i)` iterate exactly the
children with `IsNamed`, modelled by filtering on the `isNamed` flag).
Source bytes are modelled as a character list (byte-exact for ASCII
sources). -/

inductive SNode where
  | mk (isNamed : Bool) (kind : String) (startByte endByte : Nat)
       (children : List SNode)

def SNode.isNamed : SNode → Bool
  | .mk b _ _ _ _ => b

def SNode.kind : SNode → String
  | .mk _ k _ _ _ => k

def SNode.startByte : SNode → Nat
  | .mk _ _ s _ _ => s

def SNode.endByte : SNode → Nat
  | .mk _ _ _ e _ => e

def SNode.children : SNode → List SNode
  | .mk _ _ _ _ cs => cs

/-- RE2 `\s` (the `whitespaceRegex`): tab, newline, form feed, carriage
return, space. -/
def isSpaceRE2 (c : Char) : Bool :=
  c = '\t' || c = '\n' || c = '\x0c' || c = '\r' || c = ' '

/-- `whitespaceRegex.MatchString text`. -/
def whitespaceMatch (s : String) : Bool := s.data.any isSpaceRE2

/-- `string(sourceCode[n.StartByte():n.EndByte()])`. -/
def nodeText (sourceCode : List Char) (startByte endByte : Nat) : String :=
  String.mk ((sourceCode.drop startByte).take (endByte - startByte))

def identifierKinds : List String :=
  ["identifier", "field_identifier", "package_identifier"]

def declarationKinds : List String :=
  ["function_declaration", "method_declaration", "struct_declaration",
   "interface_declaration", "type_declaration", "identifier",
   "field_identifier", "package_identifier"]

mutual

/-- The `collectIdentifiers` helper of `GetCodeMap`: emit the node's text
when it is a named identifier-class node whose text is longer than one
character and free of whitespace, then recurse into all named
children. -/
def collectIdentifiers (sourceCode : List Char) : SNode → List String
  | .mk isNamed kind s e cs =>
      (if isNamed = true ∧ kind ∈ identifierKinds ∧
          (nodeText sourceCode s e).length > 1 ∧
          whitespaceMatch (nodeText sourceCode s e) = false
        then [nodeText sourceCode s e] else [])
        ++ collectIdentifiersList sourceCode cs

def collectIdentifiersList (sourceCode : List Char) : List SNode → List String
  | [] => []
  | c :: rest =>
      (if c.isNamed then collectIdentifiers sourceCode c else []) ++
        collectIdentifiersList sourceCode rest

end

mutual

/-- The `traverse` closure of `GetCodeMap`: at a named declaration- or
identifier-class node whose text is longer than one character, harvest
`collectIdentifiers` of the whole branch and stop; otherwise keep
traversing the named children. -/
def traverseTerms (sourceCode : List Char) : SNode → List String
  | .mk isNamed kind s e cs =>
      if isNamed = true ∧ kind ∈ declarationKinds then
        (if (nodeText sourceCode s e).length > 1
          then collectIdentifiers sourceCode (.mk isNamed kind s e cs)
          else [])
      else traverseTermsList sourceCode cs

def traverseTermsList (sourceCode : List Char) : List SNode → List String
  | [] => []
  | c :: rest =>
      (if c.isNamed then traverseTerms sourceCode c else []) ++
        traverseTermsList sourceCode rest

end

/-- `GetCodeMap(root, filename, sourceCode)`: nil root is the only error;
otherwise the deduplicated term set is returned (`terms` is a Go map, so
iteration order is unspecified; `List.dedup` is the canonical
representative, identical as a set). `filename` is unused by the live
code. -/
def GetCodeMap (root : Option SNode) (filename : String)
    (sourceCode : List Char) : Except String (List String) :=
  match root with
  | none => .error "root node cannot be nil"
  | some r => .ok ((traverseTerms sourceCode r).dedup)

theorem SNode.inductionOn {motive : SNode → Prop}
    (h : ∀ b k s e cs, (∀ c ∈ cs, motive c) → motive (.mk b k s e cs)) :
    ∀ n, motive n := by
  have hk : ∀ (k : Nat) (n : SNode), sizeOf n ≤ k → motive n := by
    intro k
    induction k with
    | zero =>
        intro n hn
        cases n with
        | mk b kd s e cs =>
            exfalso
            simp only [SNode.mk.sizeOf_spec] at hn
            omega
    | succ k ih =>
        intro n hn
        cases n with
        | mk b kd s e cs =>
            apply h
            intro c hc
            apply ih
            have := List.sizeOf_lt_of_mem hc
            simp only [SNode.mk.sizeOf_spec] at hn
            omega
  exact fun n => hk (sizeOf n) n le_rfl

theorem mem_collectIdentifiersList {src : List Char} {x : String}
    {cs : List SNode} (h : x ∈ collectIdentifiersList src cs) :
    ∃ c ∈ cs, c.isNamed = true ∧ x ∈ collectIdentifiers src c := by
  induction cs with
  | nil => simp [collectIdentifiersList] at h
  | cons c rest ih =>
      rw [collectIdentifiersList] at h
      rcases List.mem_append.mp h with h | h
      · by_cases hn : c.isNamed
        · exact ⟨c, List.mem_cons_self _ _, hn, by rwa [if_pos hn] at h⟩
        · rw [if_neg hn] at h
          exact absurd h (List.not_mem_nil x)
      · obtain ⟨c2, hc2, hn2, hx2⟩ := ih h
        exact ⟨c2, List.mem_cons_of_mem _ hc2, hn2, hx2⟩

/-- Everything `collectIdentifiers` emits passed the hygiene filter. -/
theorem mem_collectIdentifiers_hygiene (src : List Char) :
    ∀ (n : SNode), ∀ x ∈ collectIdentifiers src n,
      x.length > 1 ∧ whitespaceMatch x = false := by
  apply SNode.inductionOn
  intro b k s e cs ih x hx
  rw [collectIdentifiers] at hx
  rcases List.mem_append.mp hx with hx | hx
  · by_cases hcond : b = true ∧ k ∈ identifierKinds ∧
        (nodeText src s e).length > 1 ∧ whitespaceMatch (nodeText src s e) = false
    · rw [if_pos hcond] at hx
      rw [List.mem_singleton.mp hx]
      exact ⟨hcond.2.2.1, hcond.2.2.2⟩
    · rw [if_neg hcond] at hx
      exact absurd hx (List.not_mem_nil x)
  · obtain ⟨c, hc, _, hxc⟩ := mem_collectIdentifiersList hx
    exact ih c hc x hxc

theorem mem_traverseTermsList {src : List Char} {x : String}
    {cs : List SNode} (h : x ∈ traverseTermsList src cs) :
    ∃ c ∈ cs, c.isNamed = true ∧ x ∈ traverseTerms src c := by
  induction cs with
  | nil => simp [traverseTermsList] at h
  | cons c rest ih =>
      rw [traverseTermsList] at h
      rcases List.mem_append.mp h with h | h
      · by_cases hn : c.isNamed
        · exact ⟨c, List.mem_cons_self _ _, hn, by rwa [if_pos hn] at h⟩
        · rw [if_neg hn] at h
          exact absurd h (List.not_mem_nil x)
      · obtain ⟨c2, hc2, hn2, hx2⟩ := ih h
        exact ⟨c2, List.mem_cons_of_mem _ hc2, hn2, hx2⟩

/-- Everything the traversal harvests passed the hygiene filter. -/
theorem mem_traverseTerms_hygiene (src : List Char) :
    ∀ (n : SNode), ∀ x ∈ traverseTerms src n,
      x.length > 1 ∧ whitespaceMatch x = false := by
  apply SNode.inductionOn
  intro b k s e cs ih x hx
  rw [traverseTerms] at hx
  by_cases hcond : b = true ∧ k ∈ declarationKinds
  · rw [if_pos hcond] at hx
    by_cases hlen : (nodeText src s e).length > 1
    · rw [if_pos hlen] at hx
      exact mem_collectIdentifiers_hygiene src _ x hx
    · rw [if_neg hlen] at hx
      exact absurd hx (List.not_mem_nil x)
  · rw [if_neg hcond] at hx
    obtain ⟨c, hc, _, hxc⟩ := mem_traverseTermsList hx
    exact ih c hc x hxc

/-- C5 (confirmed): a successful `GetCodeMap` returns only identifier
texts longer than one character and free of whitespace, deduplicated
(each text at most once), and membership is exact string equality — the
list is precisely the set harvested by the traversal, so identifiers
differing only in case remain distinct entries. -/
theorem GetCodeMap_identifier_hygiene (r : SNode) (fn : String)
    (src : List Char) (l : List String)
    (h : GetCodeMap (some r) fn src = .ok l) :
    (∀ x ∈ l, x.length > 1 ∧ whitespaceMatch x = false) ∧
    l.Nodup ∧
    (∀ x, x ∈ l ↔ x ∈ traverseTerms src r) := by
  have hl : l = (traverseTerms src r).dedup := by
    simpa [GetCodeMap] using h.symm
  subst hl
  refine ⟨?_, List.nodup_dedup _, fun x => List.mem_dedup⟩
  intro x hx
  exact mem_traverseTerms_hygiene src r x (List.mem_dedup.mp hx)

/-- Witness for C5 on a function declaration containing the identifiers
`foo` and `Foo` (case matters) plus a one-character identifier `x` that
the filter drops. -/
theorem GetCodeMap_identifier_hygiene_witness :
    (∀ x ∈ ["foo", "Foo"], x.length > 1 ∧ whitespaceMatch x = false) ∧
    (["foo", "Foo"] : List String).Nodup ∧
    (∀ x, x ∈ ["foo", "Foo"] ↔
      x ∈ traverseTerms "fooFoox".data
        (.mk true "function_declaration" 0 7
          [.mk true "identifier" 0 3 [], .mk true "identifier" 3 6 [],
           .mk true "identifier" 6 7 []])) := by
  have h := GetCodeMap_identifier_hygiene
    (.mk true "function_declaration" 0 7
      [.mk true "identifier" 0 3 [], .mk true "identifier" 3 6 [],
       .mk true "identifier" 6 7 []])
    "a.go" ("fooFoox".data) ["foo", "Foo"] (by rfl)
  exact h

/-- C10 (confirmed): `GetCodeMap` fails exactly on a nil root; for every
non-nil root it returns the harvested keyword list with a nil error,
whatever the tree shape or source bytes. -/
theorem GetCodeMap_error_iff_nil_root :
    (∀ (fn : String) (src : List Char),
      GetCodeMap none fn src = .error "root node cannot be nil") ∧
    (∀ (r : SNode) (fn : String) (src : List Char),
      GetCodeMap (some r) fn src = .ok ((traverseTerms src r).dedup)) :=
  ⟨fun _ _ => rfl, fun _ _ _ => rfl⟩

/-! ## libs/types (revision A): the SELECT payload and the client's
post-SELECT processing (apps/client/main.go, STEP 4) -/

def fileOperationRemove : Int := -1
def fileOperationUpdate : Int := 0
def fileOperationCreate : Int := 1

structure StepFileSelectItem where
  operation : Int
  path : String
  reason : String

structure StepFileSelectFiles where
  files : List StepFileSelectItem
  additional : List StepFileSelectItem

/-- Go map read on `filesContents`. -/
def lookupStr (m : List (String × String)) (k : String) : Option String :=
  match m with
  | [] => none
  | (k2, v) :: rest => if k2 = k then some v else lookupStr rest k

/-- Go map write on `filesContents`. -/
def setStr (m : List (String × String)) (k v : String) :
    List (String × String) :=
  match m with
  | [] => [(k, v)]
  | (k2, v2) :: rest =>
      if k2 = k then (k, v) :: rest else (k2, v2) :: setStr rest k v

theorem lookupStr_setStr_self (m : List (String × String)) (k v : String) :
    lookupStr (setStr m k v) k = some v := by
  induction m with
  | nil => simp [setStr, lookupStr]
  | cons hd tl ih =>
      obtain ⟨k2, v2⟩ := hd
      by_cases h : k2 = k <;> simp [setStr, lookupStr, h, ih]

/-- First gathering loop: read every `files` entry with
`operation == FileOperationUpdate` into `filesContents`; anything else is
skipped; a read failure is logged and skipped.  The second returned
component is the sequence of `os.ReadFile` invocations. -/
def gatherFilesLoop (readFile : String → Option String) :
    List StepFileSelectItem → List (String × String) → List String →
    List (String × String) × List String
  | [], m, tr => (m, tr)
  | f :: rest, m, tr =>
      if f.operation ≠ fileOperationUpdate then
        gatherFilesLoop readFile rest m tr
      else
        match readFile f.path with
        | none => gatherFilesLoop readFile rest m (tr ++ [f.path])
        | some content =>
            gatherFilesLoop readFile rest (setStr m f.path content)
              (tr ++ [f.path])

/-- Second gathering loop: read every `additional_context_files` entry
(whatever its operation); a read failure is skipped. -/
def gatherAdditionalLoop (readFile : String → Option String) :
    List StepFileSelectItem → List (String × String) → List String →
    List (String × String) × List String
  | [], m, tr => (m, tr)
  | f :: rest, m, tr =>
      match readFile f.path with
      | none => gatherAdditionalLoop readFile rest m (tr ++ [f.path])
      | some content =>
          gatherAdditionalLoop readFile rest (setStr m f.path content)
            (tr ++ [f.path])

/-- `fmt.Sprintf("%d | %s\n", …)` accumulation of the scanner loop,
numbering from the given counter. -/
def numberLinesFrom : Nat → List String → String
  | _, [] => ""
  | i, l :: rest => toString i ++ " | " ++ l ++ "\n" ++ numberLinesFrom (i + 1) rest

/-- `bufio.ScanLines` drops one final `\r` of each line. -/
def dropTrailingCR (l : List Char) : List Char :=
  if l.getLast? = some '\r' then l.dropLast else l

/-- The token stream of `bufio.Scanner` with `bufio.ScanLines`: each
`\n` terminates a token (whose trailing `\r`, if any, is dropped); any
nonempty remainder after the last `\n` is a final token; empty content
yields no token. -/
def scanLinesAux (acc : List Char) : List Char → List String
  | [] => if acc.isEmpty then [] else [String.mk (dropTrailingCR acc)]
  | c :: rest =>
      if c = '\n' then String.mk (dropTrailingCR acc) :: scanLinesAux [] rest
      else scanLinesAux (acc ++ [c]) rest

def goScanLines (s : String) : List String := scanLinesAux [] s.data

/-- One iteration of the WORK loop (apps/client/main.go 235–266): the
per-file prompt is the `# path` header, followed — only for
`operation == FileOperationUpdate` — by the file content with each line
prefixed by its number starting from 1.  On a read failure the iteration
`continue`s: no prompt is sent.  The second component again records the
`os.ReadFile` invocations. -/
def fileContentWithLineNumbers (readFile : String → Option String)
    (file : StepFileSelectItem) : Option String × List String :=
  let header := "# " ++ file.path ++ "\n\n"
  if file.operation = fileOperationUpdate then
    match readFile file.path with
    | none => (none, [file.path])
    | some content =>
        (some (header ++ numberLinesFrom 1 (goScanLines content)), [file.path])
  else (some header, [])

/-- The WORK loop over all `files` entries: prompts actually sent, and the
read trace. -/
def workLoop (readFile : String → Option String) :
    List StepFileSelectItem → List String × List String
  | [] => ([], [])
  | f :: rest =>
      let pr := fileContentWithLineNumbers readFile f
      let rec2 := workLoop readFile rest
      ((match pr.1 with
        | none => rec2.1
        | some x => x :: rec2.1), pr.2 ++ rec2.2)

/-- The client's whole post-SELECT processing: gather `filesContents`,
then issue the per-file WORK prompts.  Returns the contents map, the
prompts sent, and the full `os.ReadFile` trace. -/
def clientAfterSelect (readFile : String → Option String)
    (resp : StepFileSelectFiles) :
    List (String × String) × List String × List String :=
  let g1 := gatherFilesLoop readFile resp.files [] []
  let g2 := gatherAdditionalLoop readFile resp.additional g1.1 g1.2
  let w := workLoop readFile resp.files
  (g2.1, w.1, g2.2 ++ w.2)

theorem lookupStr_setStr_ne (m : List (String × String)) {k k2 : String}
    (v : String) (h : k2 ≠ k) :
    lookupStr (setStr m k v) k2 = lookupStr m k2 := by
  induction m with
  | nil =>
      simp only [setStr, lookupStr]
      rw [if_neg (fun hh => h hh.symm)]
  | cons hd tl ih =>
      obtain ⟨k0, v0⟩ := hd
      by_cases h0 : k0 = k
      · subst h0
        simp only [setStr, if_pos rfl, lookupStr]
        rw [if_neg (fun hh => h hh.symm), if_neg (fun hh => h hh.symm)]
      · by_cases h1 : k0 = k2
        · subst h1
          simp [setStr, lookupStr, h0]
        · simp [setStr, lookupStr, h0, h1, ih]

theorem gatherFilesLoop_trace_count (readFile : String → Option String)
    (p : String) :
    ∀ (fs : List StepFileSelectItem) (m : List (String × String))
      (tr : List String),
      ((gatherFilesLoop readFile fs m tr).2).count p =
        tr.count p + (fs.filter (fun it =>
          it.path == p && it.operation == fileOperationUpdate)).length := by
  intro fs
  induction fs with
  | nil => intro m tr; simp [gatherFilesLoop]
  | cons f rest ih =>
      intro m tr
      by_cases hop : f.operation = fileOperationUpdate
      · rw [gatherFilesLoop, if_neg (by simp [hop])]
        cases hrf : readFile f.path with
        | none =>
            rw [ih]
            by_cases hp : f.path = p <;>
              simp [List.count_append, hp, hop, List.count_singleton] <;> omega
        | some c =>
            rw [ih]
            by_cases hp : f.path = p <;>
              simp [List.count_append, hp, hop, List.count_singleton] <;> omega
      · rw [gatherFilesLoop, if_pos (by simpa using hop)]
        rw [ih]
        simp [hop]

theorem gatherAdditionalLoop_trace_count (readFile : String → Option String)
    (p : String) :
    ∀ (fs : List StepFileSelectItem) (m : List (String × String))
      (tr : List String),
      ((gatherAdditionalLoop readFile fs m tr).2).count p =
        tr.count p + (fs.filter (fun it => it.path == p)).length := by
  intro fs
  induction fs with
  | nil => intro m tr; simp [gatherAdditionalLoop]
  | cons f rest ih =>
      intro m tr
      rw [gatherAdditionalLoop]
      cases hrf : readFile f.path with
      | none =>
          rw [ih]
          by_cases hp : f.path = p <;>
            simp [List.count_append, hp, List.count_singleton] <;> omega
      | some c =>
          rw [ih]
          by_cases hp : f.path = p <;>
            simp [List.count_append, hp, List.count_singleton] <;> omega

theorem workLoop_trace_count (readFile : String → Option String) (p : String) :
    ∀ (fs : List StepFileSelectItem),
      ((workLoop readFile fs).2).count p =
        (fs.filter (fun it =>
          it.path == p && it.operation == fileOperationUpdate)).length := by
  intro fs
  induction fs with
  | nil => simp [workLoop]
  | cons f rest ih =>
      rw [workLoop]
      simp only [List.count_append]
      rw [ih]
      by_cases hop : f.operation = fileOperationUpdate
      · have hpr2 : (fileContentWithLineNumbers readFile f).2 = [f.path] := by
          simp only [fileContentWithLineNumbers, if_pos hop]
          cases readFile f.path <;> simp
        rw [hpr2]
        by_cases hp : f.path = p
        · rw [List.filter_cons_of_pos (by simp [hp, hop])]
          simp [hp, List.count_cons, List.count_nil]
          omega
        · rw [List.filter_cons_of_neg (by simp [hp])]
          simp [List.count_cons, List.count_nil, hp]
      · have hpr2 : (fileContentWithLineNumbers readFile f).2 = [] := by
          simp only [fileContentWithLineNumbers, if_neg hop]
        rw [hpr2]
        rw [List.filter_cons_of_neg (by simp [hop])]
        simp

theorem gatherFilesLoop_lookup_skip (readFile : String → Option String)
    (p : String) :
    ∀ (fs : List StepFileSelectItem) (m : List (String × String))
      (tr : List String),
      (∀ it ∈ fs, it.path = p → it.operation ≠ fileOperationUpdate) →
      lookupStr (gatherFilesLoop readFile fs m tr).1 p = lookupStr m p := by
  intro fs
  induction fs with
  | nil => intro m tr _; simp [gatherFilesLoop]
  | cons f rest ih =>
      intro m tr h
      by_cases hop : f.operation = fileOperationUpdate
      · rw [gatherFilesLoop, if_neg (by simp [hop])]
        have hp : f.path ≠ p := by
          intro hcon
          exact h f (List.mem_cons_self _ _) hcon hop
        cases hrf : readFile f.path with
        | none => exact ih m _ (fun it hit => h it (List.mem_cons_of_mem _ hit))
        | some c =>
            rw [ih _ _ (fun it hit => h it (List.mem_cons_of_mem _ hit))]
            exact lookupStr_setStr_ne m c (fun hh => hp hh.symm)
      · rw [gatherFilesLoop, if_pos (by simpa using hop)]
        exact ih m tr (fun it hit => h it (List.mem_cons_of_mem _ hit))

theorem gatherFilesLoop_lookup_nopath (readFile : String → Option String)
    (p : String) :
    ∀ (fs : List StepFileSelectItem) (m : List (String × String))
      (tr : List String),
      (∀ it ∈ fs, it.path ≠ p) →
      lookupStr (gatherFilesLoop readFile fs m tr).1 p = lookupStr m p := by
  intro fs
  induction fs with
  | nil => intro m tr _; simp [gatherFilesLoop]
  | cons f rest ih =>
      intro m tr h
      have hp : f.path ≠ p := h f (List.mem_cons_self _ _)
      by_cases hop : f.operation = fileOperationUpdate
      · rw [gatherFilesLoop, if_neg (by simp [hop])]
        cases hrf : readFile f.path with
        | none => exact ih m _ (fun it hit => h it (List.mem_cons_of_mem _ hit))
        | some c =>
            rw [ih _ _ (fun it hit => h it (List.mem_cons_of_mem _ hit))]
            exact lookupStr_setStr_ne m c (fun hh => hp hh.symm)
      · rw [gatherFilesLoop, if_pos (by simpa using hop)]
        exact ih m tr (fun it hit => h it (List.mem_cons_of_mem _ hit))

theorem gatherAdditionalLoop_lookup_nopath (readFile : String → Option String)
    (p : String) :
    ∀ (fs : List StepFileSelectItem) (m : List (String × String))
      (tr : List String),
      (∀ it ∈ fs, it.path ≠ p) →
      lookupStr (gatherAdditionalLoop readFile fs m tr).1 p = lookupStr m p := by
  intro fs
  induction fs with
  | nil => intro m tr _; simp [gatherAdditionalLoop]
  | cons f rest ih =>
      intro m tr h
      have hp : f.path ≠ p := h f (List.mem_cons_self _ _)
      rw [gatherAdditionalLoop]
      cases hrf : readFile f.path with
      | none => exact ih m _ (fun it hit => h it (List.mem_cons_of_mem _ hit))
      | some c =>
          rw [ih _ _ (fun it hit => h it (List.mem_cons_of_mem _ hit))]
          exact lookupStr_setStr_ne m c (fun hh => hp hh.symm)

theorem filter_path_singleton {fs : List StepFileSelectItem} {p : String}
    {it0 : StepFileSelectItem}
    (h : fs.filter (fun it => it.path == p) = [it0]) :
    it0.path = p ∧ ∀ it ∈ fs, it ≠ it0 → it.path ≠ p := by
  constructor
  · have : it0 ∈ fs.filter (fun it => it.path == p) := by rw [h]; simp
    have := List.of_mem_filter this
    simpa using this
  · intro it hit hne hcon
    have hmem : it ∈ fs.filter (fun it => it.path == p) :=
      List.mem_filter.mpr ⟨hit, by simpa using hcon⟩
    rw [h] at hmem
    exact hne (List.mem_singleton.mp hmem)

theorem gatherFilesLoop_lookup_update (readFile : String → Option String)
    (p c : String) (hrf : readFile p = some c) :
    ∀ (fs : List StepFileSelectItem) (m : List (String × String))
      (tr : List String),
      (fs.filter (fun it => it.path == p)).map
        (fun it => it.operation) = [fileOperationUpdate] →
      lookupStr (gatherFilesLoop readFile fs m tr).1 p = some c := by
  intro fs
  induction fs with
  | nil => intro m tr h; simp at h
  | cons f rest ih =>
      intro m tr h
      by_cases hp : f.path = p
      · rw [List.filter_cons_of_pos (by simpa using hp), List.map_cons,
          List.cons.injEq] at h
        obtain ⟨hop, hrest⟩ := h
        have hnone : rest.filter (fun it => it.path == p) = [] := by
          cases hfil : rest.filter (fun it => it.path == p) with
          | nil => rfl
          | cons a tl => rw [hfil] at hrest; simp at hrest
        have hnop : ∀ it ∈ rest, it.path ≠ p := by
          intro it hit hcon
          have : it ∈ rest.filter (fun it => it.path == p) :=
            List.mem_filter.mpr ⟨hit, by simpa using hcon⟩
          rw [hnone] at this
          exact absurd this (List.not_mem_nil it)
        rw [gatherFilesLoop, if_neg (by simp [hop])]
        rw [hp, hrf]
        rw [gatherFilesLoop_lookup_nopath readFile p rest _ _ hnop]
        exact lookupStr_setStr_self m p c
      · rw [List.filter_cons_of_neg (by simpa using hp)] at h
        by_cases hop : f.operation = fileOperationUpdate
        · rw [gatherFilesLoop, if_neg (by simp [hop])]
          cases hrf2 : readFile f.path with
          | none => exact ih m _ h
          | some c2 => exact ih _ _ h
        · rw [gatherFilesLoop, if_pos (by simpa using hop)]
          exact ih m tr h

/-- C2 counterexample: for a SELECT response listing the single update
entry `{path: "b.go", operation: 0}` (no additional files) and a readable
file, the client's `os.ReadFile` trace for `b.go` is two reads — once
merged into `filesContents`, once more for the line-numbered WORK prompt
— not exactly one read as the claim states. -/
theorem update_read_twice_counterexample :
    (clientAfterSelect (fun _ => some "x")
        ⟨[⟨fileOperationUpdate, "b.go", "r"⟩], []⟩).2.2 = ["b.go", "b.go"] ∧
    ¬((clientAfterSelect (fun _ => some "x")
        ⟨[⟨fileOperationUpdate, "b.go", "r"⟩], []⟩).2.2.count "b.go" = 1) := by
  refine ⟨rfl, ?_⟩
  intro h
  have h2 : (clientAfterSelect (fun _ => some "x")
      ⟨[⟨fileOperationUpdate, "b.go", "r"⟩], []⟩).2.2 = ["b.go", "b.go"] := rfl
  rw [h2] at h
  simp [List.count_cons] at h

/-- C2 (amended): after a SELECT response is accepted, a `files` entry
with operation create (or remove) whose path is not otherwise listed
triggers no local read and never enters `filesContents`; a path listed
exactly once in `files`, with operation update and absent from the
additional list, is read exactly TWICE — once merged into `filesContents`
under the file's path, and once more to build the line-numbered WORK
prompt. -/
theorem select_read_semantics_amended (readFile : String → Option String)
    (resp : StepFileSelectFiles) (p : String) :
    ((∀ it ∈ resp.files, it.path = p → it.operation ≠ fileOperationUpdate) →
      (∀ it ∈ resp.additional, it.path ≠ p) →
      ((clientAfterSelect readFile resp).2.2.count p = 0 ∧
        lookupStr (clientAfterSelect readFile resp).1 p = none)) ∧
    ((resp.files.filter (fun it => it.path == p)).map
        (fun it => it.operation) = [fileOperationUpdate] →
      (∀ it ∈ resp.additional, it.path ≠ p) →
      ((clientAfterSelect readFile resp).2.2.count p = 2 ∧
        ∀ c, readFile p = some c →
          lookupStr (clientAfterSelect readFile resp).1 p = some c)) := by
  have htrace : (clientAfterSelect readFile resp).2.2.count p =
      (resp.files.filter (fun it =>
        it.path == p && it.operation == fileOperationUpdate)).length +
      (resp.additional.filter (fun it => it.path == p)).length +
      (resp.files.filter (fun it =>
        it.path == p && it.operation == fileOperationUpdate)).length := by
    show (((gatherAdditionalLoop readFile resp.additional
        (gatherFilesLoop readFile resp.files [] []).1
        (gatherFilesLoop readFile resp.files [] []).2).2) ++
        (workLoop readFile resp.files).2).count p = _
    rw [List.count_append, gatherAdditionalLoop_trace_count,
      gatherFilesLoop_trace_count, workLoop_trace_count]
    simp
  constructor
  · intro hno hadd
    have hfilnil : resp.files.filter (fun it =>
        it.path == p && it.operation == fileOperationUpdate) = [] := by
      rw [List.filter_eq_nil]
      intro it hit
      simp only [Bool.and_eq_true, beq_iff_eq, not_and]
      intro hp hop
      exact hno it hit hp hop
    have haddnil : resp.additional.filter (fun it => it.path == p) = [] := by
      rw [List.filter_eq_nil]
      intro it hit
      simp only [beq_iff_eq]
      exact hadd it hit
    constructor
    · rw [htrace, hfilnil, haddnil]
      simp
    · show lookupStr (gatherAdditionalLoop readFile resp.additional
        (gatherFilesLoop readFile resp.files [] []).1
        (gatherFilesLoop readFile resp.files [] []).2).1 p = none
      rw [gatherAdditionalLoop_lookup_nopath readFile p _ _ _ hadd,
        gatherFilesLoop_lookup_skip readFile p _ _ _ hno]
      rfl
  · intro hfilter hadd
    obtain ⟨it0, hf0, hop0⟩ : ∃ it0,
        resp.files.filter (fun it => it.path == p) = [it0] ∧
        it0.operation = fileOperationUpdate := by
      cases hf : resp.files.filter (fun it => it.path == p) with
      | nil => rw [hf] at hfilter; simp at hfilter
      | cons a tl =>
          rw [hf] at hfilter
          simp only [List.map_cons, List.cons.injEq] at hfilter
          obtain ⟨hop, htl⟩ := hfilter
          have htl2 : tl = [] := by
            cases tl with
            | nil => rfl
            | cons b tb => simp at htl
          subst htl2
          exact ⟨a, rfl, hop⟩
    have hfil1 : (resp.files.filter (fun it =>
        it.path == p && it.operation == fileOperationUpdate)) = [it0] := by
      rw [show (fun (it : StepFileSelectItem) =>
            it.path == p && it.operation == fileOperationUpdate) =
          (fun it => it.operation == fileOperationUpdate && it.path == p) from
          funext (fun it => Bool.and_comm _ _),
        ← List.filter_filter, hf0, List.filter_cons_of_pos (by simp [hop0]),
        List.filter_nil]
    have haddnil : resp.additional.filter (fun it => it.path == p) = [] := by
      rw [List.filter_eq_nil]
      intro it hit
      simp only [beq_iff_eq]
      exact hadd it hit
    constructor
    · rw [htrace, hfil1, haddnil]
      simp
    · intro c hrf
      show lookupStr (gatherAdditionalLoop readFile resp.additional
        (gatherFilesLoop readFile resp.files [] []).1
        (gatherFilesLoop readFile resp.files [] []).2).1 p = some c
      rw [gatherAdditionalLoop_lookup_nopath readFile p _ _ _ hadd]
      exact gatherFilesLoop_lookup_update readFile p c hrf _ _ _ hfilter

/-- Witness for the amended C2 at a create entry `a.go` and an update
entry `b.go`, both with readable content `x`. -/
theorem select_read_semantics_amended_witness :
    ((clientAfterSelect (fun _ => some "x")
        ⟨[⟨fileOperationCreate, "a.go", "r"⟩], []⟩).2.2.count "a.go" = 0 ∧
      lookupStr (clientAfterSelect (fun _ => some "x")
        ⟨[⟨fileOperationCreate, "a.go", "r"⟩], []⟩).1 "a.go" = none) ∧
    ((clientAfterSelect (fun _ => some "x")
        ⟨[⟨fileOperationUpdate, "b.go", "r"⟩], []⟩).2.2.count "b.go" = 2 ∧
      lookupStr (clientAfterSelect (fun _ => some "x")
        ⟨[⟨fileOperationUpdate, "b.go", "r"⟩], []⟩).1 "b.go" = some "x") := by
  constructor
  · exact (select_read_semantics_amended (fun _ => some "x")
      ⟨[⟨fileOperationCreate, "a.go", "r"⟩], []⟩ "a.go").1
      (by
        intro it hit hp
        simp only [List.mem_singleton] at hit
        subst hit
        decide)
      (by intro it hit; simp at hit)
  · have h := (select_read_semantics_amended (fun _ => some "x")
      ⟨[⟨fileOperationUpdate, "b.go", "r"⟩], []⟩ "b.go").2
      (by rfl)
      (by intro it hit; simp at hit)
    exact ⟨h.1, h.2 "x" rfl⟩

/-- C9 (confirmed): the per-file WORK prompt is the `# path` header
followed — only for update files — by the content with each line
prefixed by its line number starting from 1; create (and remove) entries
send the header alone, with no numbered body and no read. -/
theorem work_prompt_shape (readFile : String → Option String)
    (file : StepFileSelectItem) :
    (file.operation = fileOperationCreate →
      fileContentWithLineNumbers readFile file =
        (some ("# " ++ file.path ++ "\n\n"), [])) ∧
    (file.operation ≠ fileOperationUpdate →
      fileContentWithLineNumbers readFile file =
        (some ("# " ++ file.path ++ "\n\n"), [])) ∧
    (∀ c, file.operation = fileOperationUpdate → readFile file.path = some c →
      fileContentWithLineNumbers readFile file =
        (some ("# " ++ file.path ++ "\n\n" ++
          numberLinesFrom 1 (goScanLines c)), [file.path])) := by
  refine ⟨?_, ?_, ?_⟩
  · intro hop
    rw [fileContentWithLineNumbers, if_neg (by rw [hop]; decide)]
  · intro hop
    rw [fileContentWithLineNumbers, if_neg hop]
  · intro c hop hrf
    rw [fileContentWithLineNumbers, if_pos hop, hrf]

/-- Witness for C9: a create entry sends only the header; an update entry
with content two lines long sends the numbered body. -/
theorem work_prompt_shape_witness :
    fileContentWithLineNumbers (fun _ => some "l1\nl2")
        ⟨fileOperationCreate, "a.go", "r"⟩ = (some "# a.go\n\n", []) ∧
    fileContentWithLineNumbers (fun _ => some "l1\nl2")
        ⟨fileOperationUpdate, "b.go", "r"⟩ =
      (some "# b.go\n\n1 | l1\n2 | l2\n", ["b.go"]) := by
  constructor
  · exact (work_prompt_shape (fun _ => some "l1\nl2")
      ⟨fileOperationCreate, "a.go", "r"⟩).1 rfl
  · have h := (work_prompt_shape (fun _ => some "l1\nl2")
      ⟨fileOperationUpdate, "b.go", "r"⟩).2.2 "l1\nl2" rfl rfl
    rw [h]
    rfl

/-! ### Server read loops
(src/apps/server/main.go wsHandler, src/unnamed/part_000 Handler)

The websocket read loop is modelled as a function over the list of
incoming messages; the connection closing is the end of the list.  A text
message is carried as `Option CtxRequest`: `some req` when its bytes
decode, `none` when json.Unmarshal fails — in which case both handlers
log and fall through with the zero-valued request, exactly as the Go
code does.  External collaborators (context marshalling, schema
rendering, the model call, response unmarshalling, response marshalling)
are oracle fields of an environment record.  json.Marshal of the context
and of the response structs cannot fail for these value types, so those
error branches are not modelled; WriteMessage is modelled as succeeding;
extractResponseContent always returns a nil error in the source, so its
error branch is dead code and omitted. -/

def CtxStepLoadContext : String := "load"

def CtxStepFileSelection : String := "select"

def CtxStepCodeWork : String := "work"

/-- ctxtypes.CtxRequest; the ApplicationContext is abstracted to an opaque
string identity, rendered to JSON by the environment's marshalCtx. -/
structure CtxRequest where
  clientID : String
  context : String
  step : String
  userPrompt : String
  workPrompt : String

/-- The zero value json.Unmarshal leaves behind when decoding fails. -/
def zeroCtxRequest : CtxRequest := ⟨"", "", "", "", ""⟩

/-- One incoming websocket message, as seen by the read loop. -/
inductive InMsg where
  | closeMsg : InMsg
  | binary : InMsg
  | text : Option CtxRequest → InMsg

/-- Observable actions of a handler: a model call with its prompt parts,
a close frame with code and reason, a text frame written back. -/
inductive WSEvent where
  | genCall : List String → WSEvent
  | closeFrame : Nat → String → WSEvent
  | sendText : String → WSEvent

def WSEvent.isGenCall : WSEvent → Bool
  | .genCall _ => true
  | _ => false

/-- formatGenaiParts: errors on an empty instruction list, else the code
context followed by the instructions. -/
def formatGenaiParts (codeCtx : String) (instructions : List String) :
    Option (List String) :=
  if instructions.length = 0 then none
  else some (codeCtx :: instructions)

/-- Environment of wsHandler (src/apps/server/main.go).  The two schema
fields hold the EXTRA tail that fmt.Sprintf renders for the schema
argument left without a verb in the format string. -/
structure ServerEnv where
  marshalCtx : String → String
  schemaSelectExtra : String
  schemaPreloadExtra : String
  gen : List String → Option String
  parsePreload : String → Bool
  parseSelect : String → Bool

/-- Instruction lists built by wsHandler's step switch; the schema is
never interpolated because the Sprintf format string has no verb, so the
instruction ends with the EXTRA tail. -/
def instructionsWs (env : ServerEnv) (req : CtxRequest) : List String :=
  if req.step = CtxStepFileSelection then
    ["Consider the previously provided application context.",
     "Return the list of files that require editing to implement the requirements or instructions articulated in the following user prompt.",
     "Respond using this JSON schema: " ++ env.schemaSelectExtra]
  else if req.step = CtxStepLoadContext then
    ["Acknowledge application context and respond stage=preload and status=ok",
     "Respond using this JSON schema: " ++ env.schemaPreloadExtra]
  else []

/-- One iteration of wsHandler's read loop: the events it emits and
whether it returns (true) or continues (false). -/
def wsHandlerStep (env : ServerEnv) (m : InMsg) : List WSEvent × Bool :=
  match m with
  | .closeMsg => ([], true)
  | .binary => ([], false)
  | .text dec =>
      let req := dec.getD zeroCtxRequest
      let jsonCtx := env.marshalCtx req.context
      match formatGenaiParts jsonCtx (instructionsWs env req) with
      | none => ([], true)
      | some parts =>
          match env.gen parts with
          | none =>
              ([.genCall parts, .closeFrame 1011 "AI generation failed"], true)
          | some data =>
              if req.step = CtxStepLoadContext then
                ([.genCall parts], true)
              else if req.step = CtxStepFileSelection then
                if env.parseSelect data then
                  ([.genCall parts, .sendText data], false)
                else ([.genCall parts], true)
              else ([.genCall parts], false)

/-- wsHandler's read loop: events emitted and the suffix of messages left
unread when the handler returns. -/
def wsHandlerLoop (env : ServerEnv) : List InMsg → List WSEvent × List InMsg
  | [] => ([], [])
  | m :: rest =>
      match wsHandlerStep env m with
      | (evs, true) => (evs, rest)
      | (evs, false) =>
          let r := wsHandlerLoop env rest
          (evs ++ r.1, r.2)

/-- Environment of the three-stage Handler (src/unnamed/part_000): schema
renderings, the model call, the per-stage response unmarshal checks, and
the marshalled response frames. -/
structure P0Env where
  marshalCtx : String → String
  schemaPreload : String
  schemaSelect : String
  schemaPatch : String
  gen : List String → Option String
  parsePreload : String → Bool
  parseSelectFiles : String → Bool
  parsePatch : String → Bool
  renderSelectResp : String → String
  renderWorkResp : String → String

/-- Instruction lists built by the three-stage Handler's step switch. -/
def instructionsP0 (env : P0Env) (req : CtxRequest) : List String :=
  if req.step = CtxStepLoadContext then
    ["Acknowledge application context and respond step=preload and status=ok",
     "Respond using this JSON schema: " ++ env.schemaPreload]
  else if req.step = CtxStepFileSelection then
    ["You are a senior software engineer and system architect. Consider the previously provided application context along with this user prompt describing changes needed to the codebase: ``" ++ req.userPrompt ++ "``.",
     "First identity the list of files that will need to be altered, created or removed in order to implement the requirements or instructions articulated in the prompt. Return these in the `files` array. The `operation` field must be set to 0 for updates, 1 for create, and -1 for remove.",
     "Next identity additional files for which the content would be useful to have in order to perform the requested changes. Return this list of files in the `additional_context_files` array.",
     "Respond using this JSON schema: " ++ env.schemaSelect]
  else if req.step = CtxStepCodeWork then
    ["You are a senior software engineer and system architect. Consider the previously provided application context along with this user prompt describing changes needed to the codebase: ``" ++ req.userPrompt ++ "``.",
     "You always follow best practices and ensure that your code is clean, maintainable, and well-documented. Your code should be production-ready and ready to be reviewed by your peers. Changes are razor-focused and should not include any unrelated changes.",
     "Respond using a properly formatted git patch, honoring the following schema: " ++ env.schemaPatch,
     "Given the application context and the user prompt, return the changes needed to implement the requirements or instructions articulated in the prompt for the file: \n\n" ++ req.workPrompt]
  else []

/-- One iteration of the three-stage Handler: every branch of its body
ends in continue, so an iteration only emits events and the loop always
advances to the next message. -/
def handlerP0Step (env : P0Env) (m : InMsg) : List WSEvent :=
  match m with
  | .closeMsg => []
  | .binary => []
  | .text dec =>
      let req := dec.getD zeroCtxRequest
      let jsonCtx := env.marshalCtx req.context
      match formatGenaiParts jsonCtx (instructionsP0 env req) with
      | none => []
      | some parts =>
          match env.gen parts with
          | none =>
              [.genCall parts, .closeFrame 1011 "ai generation failed"]
          | some data =>
              if req.step = CtxStepLoadContext then [.genCall parts]
              else if req.step = CtxStepFileSelection then
                if env.parseSelectFiles data then
                  [.genCall parts, .sendText (env.renderSelectResp data)]
                else [.genCall parts]
              else if req.step = CtxStepCodeWork then
                if env.parsePatch data then
                  [.genCall parts, .sendText (env.renderWorkResp data)]
                else [.genCall parts]
              else [.genCall parts]

/-- The three-stage Handler's read loop: it reads every message of the
stream, since no branch returns. -/
def handlerP0 (env : P0Env) : List InMsg → List WSEvent
  | [] => []
  | m :: rest => handlerP0Step env m ++ handlerP0 env rest

/-- A SELECT-stage request and environments with a failing model call
(envP0fail, envWfail) and a succeeding one (envWok). -/
def selReq0 : CtxRequest := ⟨"cid", "CTX", "select", "do it", ""⟩

def envP0fail : P0Env :=
  ⟨fun c => c, "SP", "SS", "SW", fun _ => none,
   fun _ => true, fun _ => true, fun _ => true, fun d => d, fun d => d⟩

def envWfail : ServerEnv :=
  ⟨fun c => c, "ES", "EP", fun _ => none, fun _ => true, fun _ => true⟩

def envWok : ServerEnv :=
  ⟨fun c => c, "ES", "EP", fun _ => some "D", fun _ => true, fun _ => true⟩

def partsSel0 : List String := "CTX" :: instructionsP0 envP0fail selReq0

def partsSelW : List String := "CTX" :: instructionsWs envWfail selReq0

/-- C3 counterexample: in the three-stage Handler a failed model call
sends the 1011 close frame but the loop CONTINUES — a second request on
the same connection is still read and still reaches the model, so the
session does not terminate as claimed. -/
theorem model_failure_keeps_reading_counterexample :
    handlerP0 envP0fail [.text (some selReq0), .text (some selReq0)] =
      [.genCall partsSel0, .closeFrame 1011 "ai generation failed",
       .genCall partsSel0, .closeFrame 1011 "ai generation failed"] ∧
    ((handlerP0 envP0fail
        [.text (some selReq0), .text (some selReq0)]).filter
      WSEvent.isGenCall).length = 2 := by
  exact ⟨rfl, rfl⟩

/-- C3 (amended): when the model call fails, wsHandler emits the close
frame with the internal-error code 1011 and returns, leaving the rest of
the stream unread; the three-stage Handler emits the same close frame
but keeps reading and processing the remaining messages. -/
theorem model_failure_close_amended (envW : ServerEnv) (env : P0Env)
    (rest : List InMsg) (req : CtxRequest) (parts : List String) :
    (formatGenaiParts (envW.marshalCtx req.context) (instructionsWs envW req) =
        some parts →
      envW.gen parts = none →
      wsHandlerLoop envW (.text (some req) :: rest) =
        ([.genCall parts, .closeFrame 1011 "AI generation failed"], rest)) ∧
    (formatGenaiParts (env.marshalCtx req.context) (instructionsP0 env req) =
        some parts →
      env.gen parts = none →
      handlerP0 env (.text (some req) :: rest) =
        .genCall parts :: .closeFrame 1011 "ai generation failed" ::
          handlerP0 env rest) := by
  constructor
  · intro hfmt hgen
    have hstep : wsHandlerStep envW (.text (some req)) =
        ([.genCall parts, .closeFrame 1011 "AI generation failed"], true) := by
      show (match formatGenaiParts (envW.marshalCtx req.context)
          (instructionsWs envW req) with
        | none => (([] : List WSEvent), true)
        | some parts =>
            match envW.gen parts with
            | none =>
                ([.genCall parts, .closeFrame 1011 "AI generation failed"], true)
            | some data =>
                if req.step = CtxStepLoadContext then
                  ([.genCall parts], true)
                else if req.step = CtxStepFileSelection then
                  if envW.parseSelect data then
                    ([.genCall parts, .sendText data], false)
                  else ([.genCall parts], true)
                else ([.genCall parts], false)) = _
      rw [hfmt]
      show (match envW.gen parts with
        | none =>
            ([WSEvent.genCall parts,
              WSEvent.closeFrame 1011 "AI generation failed"], true)
        | some data =>
            if req.step = CtxStepLoadContext then
              ([WSEvent.genCall parts], true)
            else if req.step = CtxStepFileSelection then
              if envW.parseSelect data then
                ([WSEvent.genCall parts, WSEvent.sendText data], false)
              else ([WSEvent.genCall parts], true)
            else ([WSEvent.genCall parts], false)) = _
      rw [hgen]
    show (match wsHandlerStep envW (.text (some req)) with
      | (evs, true) => (evs, rest)
      | (evs, false) =>
          let r := wsHandlerLoop envW rest
          (evs ++ r.1, r.2)) = _
    rw [hstep]
  · intro hfmt hgen
    have hstep : handlerP0Step env (.text (some req)) =
        [.genCall parts, .closeFrame 1011 "ai generation failed"] := by
      show (match formatGenaiParts (env.marshalCtx req.context)
          (instructionsP0 env req) with
        | none => ([] : List WSEvent)
        | some parts =>
            match env.gen parts with
            | none =>
                [.genCall parts, .closeFrame 1011 "ai generation failed"]
            | some data =>
                if req.step = CtxStepLoadContext then [.genCall parts]
                else if req.step = CtxStepFileSelection then
                  if env.parseSelectFiles data then
                    [.genCall parts, .sendText (env.renderSelectResp data)]
                  else [.genCall parts]
                else if req.step = CtxStepCodeWork then
                  if env.parsePatch data then
                    [.genCall parts, .sendText (env.renderWorkResp data)]
                  else [.genCall parts]
                else [.genCall parts]) = _
      rw [hfmt]
      show (match env.gen parts with
        | none =>
            [WSEvent.genCall parts,
             WSEvent.closeFrame 1011 "ai generation failed"]
        | some data =>
            if req.step = CtxStepLoadContext then
              [WSEvent.genCall parts]
            else if req.step = CtxStepFileSelection then
              if env.parseSelectFiles data then
                [WSEvent.genCall parts,
                 WSEvent.sendText (env.renderSelectResp data)]
              else [WSEvent.genCall parts]
            else if req.step = CtxStepCodeWork then
              if env.parsePatch data then
                [WSEvent.genCall parts,
                 WSEvent.sendText (env.renderWorkResp data)]
              else [WSEvent.genCall parts]
            else [WSEvent.genCall parts]) = _
      rw [hgen]
    show handlerP0Step env (.text (some req)) ++ handlerP0 env rest = _
    rw [hstep]
    rfl

/-- Witness for the amended C3 at a concrete SELECT request and failing
model environments. -/
theorem model_failure_close_amended_witness :
    wsHandlerLoop envWfail [.text (some selReq0), .closeMsg] =
      ([.genCall partsSelW, .closeFrame 1011 "AI generation failed"],
       [.closeMsg]) ∧
    handlerP0 envP0fail [.text (some selReq0)] =
      [.genCall partsSel0, .closeFrame 1011 "ai generation failed"] := by
  constructor
  · exact (model_failure_close_amended envWfail envP0fail [.closeMsg]
      selReq0 partsSelW).1 rfl rfl
  · have h := (model_failure_close_amended envWfail envP0fail []
      selReq0 partsSel0).2 rfl rfl
    rw [h]
    rfl

/-- C6 counterexample: wsHandler does NOT continue to the next message
after a text frame whose bytes fail to decode — it falls through with the
zero-valued request, whose empty instruction list makes formatGenaiParts
error, and RETURNS: the follow-up SELECT request is left unread, although
on its own that request would have reached the model and produced a
reply. -/
theorem malformed_message_stops_loop_counterexample :
    (wsHandlerLoop envWok [.text none, .text (some selReq0)]).2 =
      [.text (some selReq0)] ∧
    (wsHandlerLoop envWok [.text none, .text (some selReq0)]).1 = [] ∧
    (wsHandlerLoop envWok [.text (some selReq0)]).1 =
      [.genCall partsSelW, .sendText "D"] := by
  exact ⟨rfl, rfl, rfl⟩

/-- C6 (amended): a message that fails to decode triggers no model call
in either handler; the three-stage Handler's loop continues to the next
message unchanged, but wsHandler returns, leaving the remaining messages
unread. -/
theorem malformed_message_amended (envW : ServerEnv) (env : P0Env)
    (rest : List InMsg) :
    (handlerP0 env (.text none :: rest) = handlerP0 env rest ∧
      (handlerP0Step env (.text none)).filter WSEvent.isGenCall = []) ∧
    wsHandlerLoop envW (.text none :: rest) = ([], rest) := by
  exact ⟨⟨rfl, rfl⟩, rfl⟩

end Ctx
